import Mathlib

/-
  Verification development for the LiteX FHDL-to-Verilog backend
  (litex/gen/fhdl/verilog.py).

  The definitions below are a shallow embedding of that file.  Python
  collaborators that the file imports from other packages (migen.fhdl.tools,
  migen.fhdl.structure, litex.gen.fhdl.namer, litex.gen.fhdl.expression, ...)
  are not part of this repository's source tree; wherever one of them decides
  a property, the corresponding definition is marked
  "Modelled from the spec:" and follows the natural-language specification.

  Machine integers do not occur: Python's unbounded int is modelled by
  Nat/Int.  Python's `sorted` is a stable sort; it is modelled by the stable
  insertion sort `sSort` below (any two stable sorts of the same list under
  the same total preorder coincide, so this is exact).
-/

-- ------------------------------------------------------------------------ --
-- Data model (migen.fhdl.structure, external; modelled from the spec §3)
-- ------------------------------------------------------------------------ --

/-- An attribute value: a Python int or str (verilog.py line 261 branches on
isinstance(attr_value, int)). -/
inductive AttrVal where
  | intV (i : Int)
  | strV (s : String)
deriving DecidableEq, Repr

/-- An attribute annotation: a plain string (translated through
attr_translate) or a platform-dependent (name, value) tuple. -/
inductive AttrItem where
  | plain (name : String)
  | kv (name : String) (value : AttrVal)
deriving DecidableEq, Repr

/-- Modelled from the spec: a Signal of the IR (migen.fhdl.structure.Signal is
not under src/).  "a named, fixed-width, optionally-signed value register"
with a constant reset value, an explicit-name field, a variable flag and a
set of attribute annotations. -/
structure Sig where
  id     : Nat
  name   : String
  width  : Nat
  signed : Bool := false
  reset  : Int  := 0
  isVar  : Bool := false
  attr   : List AttrItem := []
deriving DecidableEq, Repr

/-- Modelled from the spec: the expression tree of the IR (spec §9: "constant,
signal reference, unary/binary operator, slice, concatenation, replication").
Operator nodes carry their natural bit width (value_bits_sign is external). -/
inductive Value where
  | sig       (s : Sig)
  | const     (value : Int) (width : Nat)
  | op        (name : String) (width : Nat) (args : List Value)
  | slice     (v : Value) (start stop : Nat)
  | cat       (l : List Value)
  | replicate (v : Value) (n : Nat)
deriving Repr

mutual
/-- Bit width of a value (Python len() / value_bits_sign()[0]): a slice is
stop - start, a concatenation sums its operands, a replication multiplies. -/
def vlen : Value → Nat
  | .sig s => s.width
  | .const _ w => w
  | .op _ w _ => w
  | .slice _ a b => b - a
  | .cat l => vlenList l
  | .replicate v n => n * vlen v
def vlenList : List Value → Nat
  | [] => 0
  | x :: xs => vlen x + vlenList xs
end

/-- A key of a Case mapping: a Constant, or the string "default". -/
inductive CaseKey where
  | const (value : Int) (width : Nat)
  | dflt
deriving DecidableEq, Repr

/-- Modelled from the spec: the statement sum type (spec §9: "assignment,
conditional, multi-way branch, compound/sequence, display/diagnostic,
terminate").  Case holds its constant-keyed mapping as an insertion-ordered
association list (Python dicts preserve insertion order). -/
inductive Stmt where
  | assign  (l r : Value)
  | if_     (cond : Value) (t : List Stmt) (f : List Stmt)
  | case_   (test : Value) (cases : List (CaseKey × List Stmt))
  | display (s : String) (args : List Value)
  | finish
deriving Repr

/-- Kind of a special primitive: the two built-ins dispatched by
_generate_specials, or any other class. -/
inductive SpecialKind where
  | memory
  | instanceK
  | other
deriving DecidableEq, Repr

/-- Modelled from the spec: an opaque special primitive (spec §3) carrying its
declaration-order key (duid).  For a special of kind `other`,
`emitResult` models the outcome of call_special_classmethod(overrides, s,
"emit_verilog", ...): `some txt` when an override or classmethod produces
text, `none` when neither exists. -/
structure Special where
  duid       : Nat
  kind       : SpecialKind
  emitResult : Option String := none
  attr       : List AttrItem := []
  sIns       : List Sig := []
  sOuts      : List Sig := []
  sInouts    : List Sig := []
deriving DecidableEq, Repr

/-- Modelled from the spec: the circuit Fragment (spec §3): combinational
statements, clock-domain-name-keyed clocked statements, specials, and the
clock-domain descriptors (name and clock signal). -/
structure Fragment where
  comb         : List Stmt
  sync         : List (String × List Stmt)
  specials     : List Special
  clockDomains : List (String × Sig)

-- ------------------------------------------------------------------------ --
-- Small helpers: tabs, code-point string order, stable insertion sort
-- ------------------------------------------------------------------------ --

/-- _tab = " "*4. -/
def tab : String := "    "

/-- _tab*level. -/
def tabs (n : Nat) : String := String.join (List.replicate n tab)

/-- Code-point lexicographic strict order on character lists (the order Python
uses when comparing strings). -/
def charsLt : List Char → List Char → Bool
  | [], [] => false
  | [], _ :: _ => true
  | _ :: _, [] => false
  | a :: as, b :: bs =>
    if a.toNat < b.toNat then true
    else if b.toNat < a.toNat then false
    else charsLt as bs

/-- Python string `<`. -/
def strLt (a b : String) : Bool := charsLt a.data b.data

/-- Python string `<=`. -/
def strLe (a b : String) : Bool := !(strLt b a)

/-- Stable insertion of an element in front of the first strictly-greater
element: `x` goes before `y` exactly when `le x y`, so elements equal under
the preorder keep their original relative order. -/
def sIns (le : α → α → Bool) (x : α) : List α → List α
  | [] => [x]
  | y :: ys => if le x y then x :: y :: ys else y :: sIns le x ys

/-- Stable insertion sort: extensionally equal to Python's stable sorted(). -/
def sSort (le : α → α → Bool) : List α → List α
  | [] => []
  | x :: xs => sIns le x (sSort le xs)

-- ------------------------------------------------------------------------ --
-- Complex-slice lowering (verilog.py lines 423-473)
-- ------------------------------------------------------------------------ --

/-- The inner for-loop of _lower_slice_cat: scan the concatenation's operands
left to right with a running offset cat_start; Python's chained comparison
`cat_start <= start < cat_start + len(e) >= start + length` selects the first
operand whose span contains bit `start` provided it also contains the whole
slice; on success the start is rebased (`start -= cat_start`). -/
def cat_find (start length : Nat) : List Value → Nat → Option (Value × Nat)
  | [], _ => none
  | e :: es, cat_start =>
    if cat_start ≤ start ∧ start < cat_start + vlen e ∧
       start + length ≤ cat_start + vlen e then
      some (e, start - cat_start)
    else
      cat_find start length es (cat_start + vlen e)

def cat_find_mem : ∀ (es : List Value) (cs : Nat) (e : Value) (s : Nat)
    (start length : Nat), cat_find start length es cs = some (e, s) → e ∈ es := by
  intro es
  induction es with
  | nil => intro cs e s start length h; simp [cat_find] at h
  | cons x xs ih =>
    intro cs e s start length h
    rw [cat_find] at h
    by_cases hc : cs ≤ start ∧ start < cs + vlen x ∧ start + length ≤ cs + vlen x
    · simp [hc] at h
      simp [h.1]
    · simp [hc] at h
      exact List.mem_cons_of_mem _ (ih _ _ _ _ _ h)

/-- _lower_slice_cat: while the node is a concatenation, try to narrow the
slice to a single contributing operand. -/
def lower_slice_cat : Value → Nat → Nat → Value × Nat
  | .cat l, start, length =>
    match h : cat_find start length l 0 with
    | some (e, s) => lower_slice_cat e s length
    | none => (.cat l, start)
  | node, start, _ => (node, start)
termination_by v _ _ => sizeOf v
decreasing_by
  have hm := cat_find_mem l 0 e s start length h
  have := List.sizeOf_lt_of_mem hm
  simp only [Value.cat.sizeOf_spec]
  omega

/-- _lower_slice_replicate: while the node is a replication, narrow to the
replicated operand when the slice lies in one repetition period; the division
is Python floor division, hence Int.fdiv (start + length - 1 may be -1). -/
def lower_slice_replicate : Value → Nat → Nat → Value × Nat
  | .replicate v n, start, length =>
    if Int.fdiv start (vlen v) =
       Int.fdiv ((start : Int) + (length : Int) - 1) (vlen v) then
      lower_slice_replicate v (start % vlen v) length
    else
      (.replicate v n, start)
  | node, start, _ => (node, start)

/-- Whether the replication-narrowing rule applies at the top of the node:
exactly the condition under which _lower_slice_replicate takes at least one
step, i.e. under which the Python loop's `node is former_node` test fails. -/
def replicate_steps (v : Value) (start length : Nat) : Bool :=
  match v with
  | .replicate x _ =>
    decide (Int.fdiv start (vlen x) =
            Int.fdiv ((start : Int) + (length : Int) - 1) (vlen x))
  | _ => false

def sizeOf_lower_slice_replicate_le :
    ∀ (v : Value) (s l : Nat), sizeOf (lower_slice_replicate v s l).1 ≤ sizeOf v := by
  intro v s l
  induction v, s, l using lower_slice_replicate.induct with
  | case1 v n start length hc ih =>
    rw [lower_slice_replicate]
    simp only [hc, if_true]
    simp only [Value.replicate.sizeOf_spec]
    omega
  | case2 v n start length hc =>
    rw [lower_slice_replicate]
    simp only [hc, if_false]
    exact le_refl _
  | case3 node start x hne =>
    rw [lower_slice_replicate.eq_def]
    split
    · exact absurd rfl (hne _ _)
    · exact le_refl _

def sizeOf_lower_slice_replicate_lt :
    ∀ (v : Value) (s l : Nat), replicate_steps v s l = true →
      sizeOf (lower_slice_replicate v s l).1 < sizeOf v := by
  intro v s l h
  match v with
  | .replicate x n =>
    simp only [replicate_steps, decide_eq_true_eq] at h
    rw [lower_slice_replicate]
    simp only [h, if_true]
    have := sizeOf_lower_slice_replicate_le x (s % vlen x) l
    simp only [Value.replicate.sizeOf_spec]
    omega

def sizeOf_lower_slice_cat_le :
    ∀ (v : Value) (s l : Nat), sizeOf (lower_slice_cat v s l).1 ≤ sizeOf v := by
  intro v s l
  induction v, s, l using lower_slice_cat.induct with
  | case1 l start length e s hfind ih =>
    rw [lower_slice_cat]
    split
    next e' s' heq =>
      rw [hfind] at heq
      injection heq with heq1
      injection heq1 with h1 h2
      subst h1; subst h2
      have hm := cat_find_mem l 0 e s start length hfind
      have := List.sizeOf_lt_of_mem hm
      have h2 : sizeOf (Value.cat l) = 1 + sizeOf l := by simp
      omega
    next heq => rw [hfind] at heq
  | case2 l start length hfind =>
    rw [lower_slice_cat]
    split
    next e' s' heq => rw [hfind] at heq; simp at heq
    next heq => exact le_refl _
  | case3 node start x hne =>
    rw [lower_slice_cat.eq_def]
    split
    · exact absurd rfl (hne _)
    · exact le_refl _

/-- The inner fixpoint loop of visit_Slice: alternate cat-narrowing and
replicate-narrowing; stop as soon as the replicate pass makes no step
(Python's `if node is former_node: break` — the replicate pass returns a new
object exactly when its top-level rule fired at least once). -/
def lower_slice_fix (node : Value) (start length : Nat) : Value × Nat :=
  if replicate_steps (lower_slice_cat node start length).1
      (lower_slice_cat node start length).2 length then
    lower_slice_fix
      (lower_slice_replicate (lower_slice_cat node start length).1
        (lower_slice_cat node start length).2 length).1
      (lower_slice_replicate (lower_slice_cat node start length).1
        (lower_slice_cat node start length).2 length).2
      length
  else
    lower_slice_replicate (lower_slice_cat node start length).1
      (lower_slice_cat node start length).2 length
termination_by sizeOf node
decreasing_by
  have h1 := sizeOf_lower_slice_cat_le node start length
  have h2 := sizeOf_lower_slice_replicate_lt
      (lower_slice_cat node start length).1
      (lower_slice_cat node start length).2 length (by assumption)
  omega

def sizeOf_lower_slice_fix_le :
    ∀ (v : Value) (s l : Nat), sizeOf (lower_slice_fix v s l).1 ≤ sizeOf v := by
  intro v s l
  induction v, s, l using lower_slice_fix.induct with
  | case1 node start length hstep ih =>
    rw [lower_slice_fix]
    rw [if_pos hstep]
    have h1 := sizeOf_lower_slice_cat_le node start length
    have h2 := sizeOf_lower_slice_replicate_lt
        (lower_slice_cat node start length).1
        (lower_slice_cat node start length).2 length hstep
    omega
  | case2 node start length hstep =>
    rw [lower_slice_fix]
    rw [if_neg hstep]
    have h1 := sizeOf_lower_slice_cat_le node start length
    have h2 := sizeOf_lower_slice_replicate_le
        (lower_slice_cat node start length).1
        (lower_slice_cat node start length).2 length
    omega

/-- The head while-loop of visit_Slice: while the node is a slice, absorb its
start into the running offset and run the narrowing fixpoint on its operand;
`length` stays the length of the original slice throughout. -/
def slice_loop : Value → Nat → Nat → Value × Nat
  | .slice v s _, start, length =>
    slice_loop (lower_slice_fix v (start + s) length).1
      (lower_slice_fix v (start + s) length).2 length
  | node, start, _ => (node, start)
termination_by v _ _ => sizeOf v
decreasing_by
  have := sizeOf_lower_slice_fix_le v (start + s) length
  simp only [Value.slice.sizeOf_spec]
  omega

def sizeOf_slice_loop_le :
    ∀ (v : Value) (s l : Nat), sizeOf (slice_loop v s l).1 ≤ sizeOf v := by
  intro v s l
  induction v, s, l using slice_loop.induct with
  | case1 v s stop start length ih =>
    rw [slice_loop]
    have := sizeOf_lower_slice_fix_le v (start + s) length
    have h2 : sizeOf (Value.slice v s stop) = 1 + sizeOf v + sizeOf s + sizeOf stop := by
      simp
    omega
  | case2 node start x hne =>
    rw [slice_loop.eq_def]
    split
    · exact absurd rfl (hne _ _ _)
    · exact le_refl _

def sizeOf_slice_loop_slice_lt :
    ∀ (x : Value) (a b s l : Nat),
      sizeOf (slice_loop (Value.slice x a b) s l).1 < sizeOf (Value.slice x a b) := by
  intro x a b s l
  rw [slice_loop]
  have h1 := sizeOf_slice_loop_le (lower_slice_fix x (s + a) l).1
      (lower_slice_fix x (s + a) l).2 l
  have h2 := sizeOf_lower_slice_fix_le x (s + a) l
  have h3 : sizeOf (Value.slice x a b) = 1 + sizeOf x + sizeOf a + sizeOf b := by simp
  omega

-- ------------------------------------------------------------------------ --
-- The _ComplexSliceLowerer visitor (verilog.py lines 445-473)
-- ------------------------------------------------------------------------ --

/-- Lowerer state: the fresh-proxy counter and the combinational statements
accumulated by _Lowerer (self.comb), appended to f.comb by _apply_lowerer. -/
structure LowState where
  fresh : Nat
  comb  : List Stmt
deriving Repr

/-- A fresh slice-proxy signal, sized to the sliced expression's natural
width (Signal(value_bits_sign(node))). -/
def proxy_sig (fresh width : Nat) : Sig :=
  { id := fresh, name := "slice_proxy", width := width }

mutual
/-- The expression visitor.  The generic traversal (NodeTransformer /
_Lowerer of migen.fhdl, not under src/) is modelled from the spec: it
rebuilds every non-slice node from its visited children and leaves
signals and constants unchanged.  The slice case is
_ComplexSliceLowerer.visit_Slice from src: unwrap nested slices while
running the cat/replicate narrowing fixpoint; if the remaining slice is
the whole node, fall back to the generic visit; a slice of a signal is
kept; otherwise a proxy signal is created, the proxied expression is bound
to it by a new combinational assignment (oriented by the target context,
and itself visited, as _Lowerer.visit_Assign does — visiting the proxy
signal side returns it unchanged), and the slice is taken of the proxy. -/
def visit (tc : Bool) (v : Value) (st : LowState) : Value × LowState :=
  match v with
  | .sig s => (.sig s, st)
  | .const c w => (.const c w, st)
  | .op n w args =>
    ((.op n w (visitList tc args st).1), (visitList tc args st).2)
  | .cat l =>
    ((.cat (visitList tc l st).1), (visitList tc l st).2)
  | .replicate x n =>
    ((.replicate (visit tc x st).1 n), (visit tc x st).2)
  | .slice x a b =>
    if (slice_loop (.slice x a b) 0 (b - a)).2 = 0 ∧
       vlen (slice_loop (.slice x a b) 0 (b - a)).1 = b - a then
      visit tc (slice_loop (.slice x a b) 0 (b - a)).1 st
    else
      match hq : (slice_loop (.slice x a b) 0 (b - a)).1 with
      | .sig s =>
        (.slice (.sig s) (slice_loop (.slice x a b) 0 (b - a)).2
          ((slice_loop (.slice x a b) 0 (b - a)).2 + (b - a)), st)
      | nd =>
        (.slice (.sig (proxy_sig st.fresh (vlen nd)))
            (slice_loop (.slice x a b) 0 (b - a)).2
            ((slice_loop (.slice x a b) 0 (b - a)).2 + (b - a)),
         { fresh := (visit tc nd { st with fresh := st.fresh + 1 }).2.fresh,
           comb := (visit tc nd { st with fresh := st.fresh + 1 }).2.comb ++
             [if tc then
                Stmt.assign (visit tc nd { st with fresh := st.fresh + 1 }).1
                  (.sig (proxy_sig st.fresh (vlen nd)))
              else
                Stmt.assign (.sig (proxy_sig st.fresh (vlen nd)))
                  (visit tc nd { st with fresh := st.fresh + 1 }).1] })
termination_by sizeOf v
decreasing_by
  all_goals first
  | (simp only [Value.op.sizeOf_spec, Value.cat.sizeOf_spec,
        Value.replicate.sizeOf_spec]; omega)
  | (exact sizeOf_slice_loop_slice_lt x a b 0 (b - a))
  | (rw [← hq]; exact sizeOf_slice_loop_slice_lt x a b 0 (b - a))
  | (simp only [List.cons.sizeOf_spec]; omega)
  | (have h := List.sizeOf_lt_of_mem (List.mem_cons_self x xs); omega)
def visitList (tc : Bool) (l : List Value) (st : LowState) : List Value × LowState :=
  match l with
  | [] => ([], st)
  | x :: xs =>
    ((visit tc x st).1 :: (visitList tc xs (visit tc x st).2).1,
     (visitList tc xs (visit tc x st).2).2)
termination_by sizeOf l
decreasing_by
  all_goals first
  | (simp only [Value.op.sizeOf_spec, Value.cat.sizeOf_spec,
        Value.replicate.sizeOf_spec]; omega)
  | (exact sizeOf_slice_loop_slice_lt x a b 0 (b - a))
  | (rw [← hq]; exact sizeOf_slice_loop_slice_lt x a b 0 (b - a))
  | (simp only [List.cons.sizeOf_spec]; omega)
  | (have h := List.sizeOf_lt_of_mem (List.mem_cons_self x xs); omega)
end

mutual
/-- Modelled from the spec: the statement traversal of _Lowerer
(migen.fhdl.visit / migen.fhdl.tools, not under src/): an assignment's
target is visited in target context, its source out of it; conditionals and
multi-way branches have their condition/test and their branch bodies
visited; diagnostics and terminate nodes pass through. -/
def lower_stmt (s : Stmt) (st : LowState) : Stmt × LowState :=
  match s with
  | .assign l r =>
    (.assign (visit true l st).1 (visit false r (visit true l st).2).1,
     (visit false r (visit true l st).2).2)
  | .if_ c t f =>
    (.if_ (visit false c st).1
       (lower_stmts t (visit false c st).2).1
       (lower_stmts f (lower_stmts t (visit false c st).2).2).1,
     (lower_stmts f (lower_stmts t (visit false c st).2).2).2)
  | .case_ test cs =>
    (.case_ (visit false test st).1 (lower_cases cs (visit false test st).2).1,
     (lower_cases cs (visit false test st).2).2)
  | .display s args =>
    (.display s (visitList false args st).1, (visitList false args st).2)
  | .finish => (.finish, st)
termination_by sizeOf s
def lower_stmts (l : List Stmt) (st : LowState) : List Stmt × LowState :=
  match l with
  | [] => ([], st)
  | x :: xs =>
    ((lower_stmt x st).1 :: (lower_stmts xs (lower_stmt x st).2).1,
     (lower_stmts xs (lower_stmt x st).2).2)
termination_by sizeOf l
def lower_cases (cs : List (CaseKey × List Stmt)) (st : LowState) :
    List (CaseKey × List Stmt) × LowState :=
  match cs with
  | [] => ([], st)
  | (k, body) :: rest =>
    ((k, (lower_stmts body st).1) ::
       (lower_cases rest (lower_stmts body st).2).1,
     (lower_cases rest (lower_stmts body st).2).2)
termination_by sizeOf cs
end

/-- Statement lists of the synchronous map, visited in order. -/
def lower_sync (sync : List (String × List Stmt)) (st : LowState) :
    List (String × List Stmt) × LowState :=
  match sync with
  | [] => ([], st)
  | (k, body) :: rest =>
    ((k, (lower_stmts body st).1) ::
       (lower_sync rest (lower_stmts body st).2).1,
     (lower_sync rest (lower_stmts body st).2).2)

/-- lower_complex_slices = _apply_lowerer(_ComplexSliceLowerer(), f): visit
the fragment's combinational and synchronous statements, then append the
lowerer's collected proxy-binding statements to f.comb. -/
def lower_complex_slices (f : Fragment) : Fragment :=
  { f with
    comb := (lower_stmts f.comb { fresh := 0, comb := [] }).1 ++
      (lower_sync f.sync (lower_stmts f.comb { fresh := 0, comb := [] }).2).2.comb,
    sync := (lower_sync f.sync (lower_stmts f.comb { fresh := 0, comb := [] }).2).1 }

-- ------------------------------------------------------------------------ --
-- The slice invariant (claim C2)
-- ------------------------------------------------------------------------ --

/-- Whether a value is a plain Signal node. -/
def is_sig_node : Value → Bool
  | .sig _ => true
  | _ => false

mutual
/-- Every slice subexpression has a plain Signal as its operand. -/
def slices_ok : Value → Bool
  | .sig _ => true
  | .const _ _ => true
  | .op _ _ args => slices_ok_list args
  | .cat l => slices_ok_list l
  | .replicate v _ => slices_ok v
  | .slice v _ _ => is_sig_node v && slices_ok v
def slices_ok_list : List Value → Bool
  | [] => true
  | x :: xs => slices_ok x && slices_ok_list xs
end

mutual
/-- Every slice expression occurring anywhere in the statement has a plain
Signal as its operand. -/
def stmt_slices_ok : Stmt → Bool
  | .assign l r => slices_ok l && slices_ok r
  | .if_ c t f => slices_ok c && stmts_slices_ok t && stmts_slices_ok f
  | .case_ test cs => slices_ok test && cases_slices_ok cs
  | .display _ args => slices_ok_list args
  | .finish => true
def stmts_slices_ok : List Stmt → Bool
  | [] => true
  | x :: xs => stmt_slices_ok x && stmts_slices_ok xs
def cases_slices_ok : List (CaseKey × List Stmt) → Bool
  | [] => true
  | (_, body) :: rest => stmts_slices_ok body && cases_slices_ok rest
end

-- ------------------------------------------------------------------------ --
-- Renderers for external leaf services
-- ------------------------------------------------------------------------ --

/-- Modelled from the spec: the external leaf renderers (spec §1 "OUT OF
SCOPE ... the expression-rendering primitive", consumed as a service).
`E` is _generate_expression(ns, ·)[0], `name` is ns.get_name,
`D` is _generate_signal(ns, ·) (declaration text), `pystr` is Python str()
applied to a non-Signal $display argument. -/
structure Renderers where
  E     : Value → String
  name  : Sig → String
  D     : Sig → String
  pystr : Value → String

-- ------------------------------------------------------------------------ --
-- Node renderer (verilog.py lines 167-239)
-- ------------------------------------------------------------------------ --

/-- AssignType (verilog.py lines 167-170). -/
inductive AssignType where
  | blocking
  | nonBlocking
  | signal
deriving DecidableEq, Repr

/-- Modelled from the spec: is_variable (migen.fhdl.tools, not under src/):
"a plain-variable target uses immediate update semantics, any other (sliced
or expression) target uses deferred update semantics" (spec §4.4). -/
def is_variable : Value → Bool
  | .sig s => s.isVar
  | _ => false

mutual
/-- Modelled from the spec: list_targets (migen.fhdl.tools, not under src/):
the signals an assignment target denotes (a plain signal, the signal under
a slice, or each signal of a concatenation). -/
def target_sigs : Value → List Sig
  | .sig s => [s]
  | .slice v _ _ => target_sigs v
  | .cat l => target_sigs_list l
  | .const _ _ => []
  | .op _ _ _ => []
  | .replicate _ _ => []
def target_sigs_list : List Value → List Sig
  | [] => []
  | x :: xs => target_sigs x ++ target_sigs_list xs
end

mutual
/-- Modelled from the spec: list_targets on statements — the union of the
target signals of every assignment contained in the statement. -/
def stmt_targets : Stmt → List Sig
  | .assign l _ => target_sigs l
  | .if_ _ t f => stmts_targets t ++ stmts_targets f
  | .case_ _ cs => cases_targets cs
  | .display _ _ => []
  | .finish => []
def stmts_targets : List Stmt → List Sig
  | [] => []
  | x :: xs => stmt_targets x ++ stmts_targets xs
def cases_targets : List (CaseKey × List Stmt) → List Sig
  | [] => []
  | (_, body) :: rest => stmts_targets body ++ cases_targets rest
end

/-- Decidable membership of a signal in a list. -/
def sig_mem (x : Sig) (l : List Sig) : Bool := l.any (fun y => decide (y = x))

/-- The assignment operator chosen by _generate_node (lines 179-186):
BLOCKING gives " = ", NON_BLOCKING gives " <= ", SIGNAL chooses per target:
immediate for a variable, deferred otherwise. -/
def assign_op (at_ : AssignType) (l : Value) : String :=
  match at_ with
  | .blocking => " = "
  | .nonBlocking => " <= "
  | .signal => if is_variable l then " = " else " <= "

/-- The target_filter check of _generate_node (line 174): a node is skipped
when a target filter is given and the filtered signal is not among the
node's targets. -/
def target_filtered (tf : Option Sig) (node : Stmt) : Bool :=
  match tf with
  | some t => !(sig_mem t (stmt_targets node))
  | none => false

mutual
/-- _generate_node.  The Case arm filters the Constant-keyed branches,
sorts them by ascending constant value (Python sorted is stable; branch
bodies are rendered before sorting here, which commutes with sorting
because rendering a branch does not depend on its position), renders the
"default" branch last when present, and renders nothing for an empty Case.
The target_filter check is re-applied at every recursion level, as in the
source. -/
def generate_node (R : Renderers) (at_ : AssignType) (lv : Nat)
    (tf : Option Sig) (node : Stmt) : String :=
  if target_filtered tf node then ""
  else
    match node with
    | .assign l r =>
      tabs lv ++ R.E l ++ assign_op at_ l ++ R.E r ++ ";\n"
    | .if_ c t f =>
      tabs lv ++ "if (" ++ R.E c ++ ") begin\n"
      ++ generate_nodes R at_ (lv + 1) tf t
      ++ (if f.isEmpty then ""
          else tabs lv ++ "end else begin\n" ++ generate_nodes R at_ (lv + 1) tf f)
      ++ tabs lv ++ "end\n"
    | .case_ test cs =>
      if cs.isEmpty then ""
      else
        tabs lv ++ "case (" ++ R.E test ++ ")\n"
        ++ String.join
          ((sSort (fun a b => decide (a.1.1 ≤ b.1.1))
              (generate_case_branches R at_ lv tf cs).1).map
            (fun p =>
              tabs (lv + 1) ++ R.E (.const p.1.1 p.1.2) ++ ": begin\n"
              ++ p.2 ++ tabs (lv + 1) ++ "end\n"))
        ++ (match (generate_case_branches R at_ lv tf cs).2 with
            | some d => tabs (lv + 1) ++ "default: begin\n" ++ d
                ++ tabs (lv + 1) ++ "end\n"
            | none => "")
        ++ tabs lv ++ "endcase\n"
    | .display s args =>
      tabs lv ++ "$display(" ++ "\"" ++ s ++ "\""
      ++ String.join (args.map (fun a =>
           ", " ++ (match a with
                    | .sig s' => R.name s'
                    | a' => R.pystr a')))
      ++ ");\n"
    | .finish => tabs lv ++ "$finish;\n"
/-- Rendering of an iterable of statements (joined sub-renderings). -/
def generate_nodes (R : Renderers) (at_ : AssignType) (lv : Nat)
    (tf : Option Sig) (l : List Stmt) : String :=
  match l with
  | [] => ""
  | x :: xs =>
    generate_node R at_ lv tf x ++ generate_nodes R at_ lv tf xs
/-- The Constant-keyed branches of a Case, each paired with its rendered
body (at level lv+2), together with the rendered body of the first
"default" branch when one exists. -/
def generate_case_branches (R : Renderers) (at_ : AssignType) (lv : Nat)
    (tf : Option Sig) (cs : List (CaseKey × List Stmt)) :
    List ((Int × Nat) × String) × Option String :=
  match cs with
  | [] => ([], none)
  | (k, body) :: rest =>
    match k with
    | .const v w =>
      (((v, w), generate_nodes R at_ (lv + 2) tf body) ::
         (generate_case_branches R at_ lv tf rest).1,
       (generate_case_branches R at_ lv tf rest).2)
    | .dflt =>
      ((generate_case_branches R at_ lv tf rest).1,
       some (generate_nodes R at_ (lv + 2) tf body))
end

-- ------------------------------------------------------------------------ --
-- Combinational and synchronous emission (verilog.py lines 271-393)
-- ------------------------------------------------------------------------ --

/-- _use_wire (lines 271-273): a statement group qualifies for continuous
'assign' form iff it has exactly one statement, that statement is a plain
assignment, and the assignment's target is not a bounded slice. -/
def use_wire : List Stmt → Bool
  | [.assign l _] =>
    match l with
    | .slice _ _ _ => false
    | _ => true
  | _ => false

/-- Signal lists without duplicates, keeping first occurrences (sets of the
Python code are modelled as duplicate-free lists). -/
def dedup_sigs (l : List Sig) : List Sig := l.eraseDups

/-- Whether a group shares a target with the given target list. -/
def shares_target (ts : List Sig) (g : List Sig × List Stmt) : Bool :=
  g.1.any (fun y => sig_mem y ts)

/-- Modelled from the spec: group_by_targets (migen.fhdl.tools, not under
src/): "statements are partitioned by the set of signals they jointly
target (two statements join the same group iff they share any target)"
(spec §4.3); each statement merges every existing group it shares a target
with. -/
def group_by_targets (stmts : List Stmt) : List (List Sig × List Stmt) :=
  stmts.foldl
    (fun gs s =>
      gs.filter (fun g => !(shares_target (dedup_sigs (stmt_targets s)) g)) ++
        [(dedup_sigs
            ((gs.filter (shares_target (dedup_sigs (stmt_targets s)))).foldl
               (fun a g => a ++ g.1) [] ++ dedup_sigs (stmt_targets s)),
          (gs.filter (shares_target (dedup_sigs (stmt_targets s)))).foldl
             (fun a g => a ++ g.2) [] ++ [s])])
    []

/-- _list_comb_wires (lines 275-281): all targets of groups qualifying for
continuous form. -/
def list_comb_wires (f : Fragment) : List Sig :=
  (group_by_targets f.comb).foldl
    (fun r g => if use_wire g.2 then r ++ g.1 else r) []

/-- _generate_combinatorial_logic_synth (lines 366-381): emit each
shared-target group either as one continuous assignment (direct form) or as
one procedural always @(*) block that first assigns every grouped target its
reset value (targets sorted by emitted name) and then renders the group's
statements with non-blocking assignments. -/
def generate_combinatorial_logic_synth (R : Renderers) (comb : List Stmt) :
    String :=
  (if comb.isEmpty then ""
   else
     String.join ((group_by_targets comb).map (fun g =>
       if use_wire g.2 then
         "assign " ++ generate_node R .blocking 0 none (g.2.headD .finish)
       else
         "always @(*) begin\n"
         ++ String.join
             ((sSort (fun a b => strLe (R.name a) (R.name b)) g.1).map
               (fun t => tab ++ R.name t ++ " <= "
                 ++ R.E (.const t.reset t.width) ++ ";\n"))
         ++ generate_nodes R .nonBlocking 1 none g.2
         ++ "end\n")))
  ++ "\n"

/-- First-seen order of the combinational targets (the insertion order of
the Python target_stmt_map dict). -/
def comb_targets_order (comb : List Stmt) : List Sig :=
  dedup_sigs (comb.foldl (fun a s => a ++ stmt_targets s) [])

/-- The statements of the combinational set touching a given target. -/
def stmts_touching (comb : List Stmt) (t : Sig) : List Stmt :=
  comb.filter (fun s => sig_mem t (stmt_targets s))

/-- _generate_combinatorial_logic_sim (lines 342-364): per-target rendering
with a cross-cutting target filter (flat_iteration is the identity here:
statement lists of this model are already flat). -/
def generate_combinatorial_logic_sim (R : Renderers) (comb : List Stmt) :
    String :=
  (if comb.isEmpty then ""
   else
     String.join ((comb_targets_order comb).map (fun t =>
       if use_wire (stmts_touching comb t) then
         "assign " ++ generate_node R .blocking 0 none
           ((stmts_touching comb t).headD .finish)
       else
         "always @(*) begin\n"
         ++ tab ++ R.name t ++ " <= " ++ R.E (.const t.reset t.width) ++ ";\n"
         ++ generate_nodes R .nonBlocking 1 (some t) (stmts_touching comb t)
         ++ "end\n")))
  ++ "\n"

/-- Clock-domain descriptor lookup (f.clock_domains[k]). -/
def find_clk (cds : List (String × Sig)) (k : String) : Option Sig :=
  (cds.find? (fun p => p.1 == k)).map (fun p => p.2)

/-- _generate_synchronous_logic (lines 387-393): one always-block per clock
domain, in sorted clock-domain-name order, triggered on the rising edge of
the domain's clock, body rendered with AssignType.SIGNAL.  (On a clock
domain without a descriptor the Python code would raise a KeyError; the
conversion checks all referenced domains beforehand, so that case, rendered
here as an empty name, is unreachable from convert.) -/
def generate_synchronous_logic (R : Renderers) (f : Fragment) : String :=
  String.join ((sSort (fun a b => strLe a.1 b.1) f.sync).map (fun kv =>
    "always @(posedge "
    ++ (match find_clk f.clockDomains kv.1 with
        | some c => R.name c
        | none => "") ++ ") begin\n"
    ++ generate_nodes R .signal 1 none kv.2
    ++ "end\n\n"))

-- ------------------------------------------------------------------------ --
-- Attributes (verilog.py lines 245-265)
-- ------------------------------------------------------------------------ --

/-- The Python sort key: a plain attribute sorts as ("", itself), a tuple as
(name, value). -/
def attr_key : AttrItem → String × AttrVal
  | .plain s => ("", .strV s)
  | .kv n v => (n, v)

/-- Comparison of attribute values inside equal-name keys.  (Python would
raise a TypeError comparing an int with a str; that partiality is totalized
here by ordering ints before strs — it is never exercised by equal-name
keys of one kind.) -/
def attr_val_le : AttrVal → AttrVal → Bool
  | .intV a, .intV b => decide (a ≤ b)
  | .strV a, .strV b => strLe a b
  | .intV _, .strV _ => true
  | .strV _, .intV _ => false

/-- Lexicographic order of the Python sort keys. -/
def attr_le (a b : AttrItem) : Bool :=
  if strLt (attr_key a).1 (attr_key b).1 then true
  else if strLt (attr_key b).1 (attr_key a).1 then false
  else attr_val_le (attr_key a).2 (attr_key b).2

/-- const_expr (line 261): strings are double-quoted, ints printed bare. -/
def render_attr_val : AttrVal → String
  | .intV i => toString i
  | .strV s => "\"" ++ s ++ "\""

/-- _generate_attribute: sort, translate plain attributes (dropping
untranslated ones), join with ", ", and wrap in "(* ... *)\n" when
non-empty. -/
def generate_attribute (translate : String → Option (String × AttrVal))
    (attr : List AttrItem) : String :=
  match String.intercalate ", "
      (((sSort attr_le attr).filterMap (fun a =>
          match a with
          | .kv n v => some (n, v)
          | .plain s => translate s)).map
        (fun p => p.1 ++ " = " ++ render_attr_val p.2)) with
  | "" => ""
  | r => "(* " ++ r ++ " *)\n"

-- ------------------------------------------------------------------------ --
-- Signal collection (migen.fhdl.tools helpers, modelled from the spec)
-- ------------------------------------------------------------------------ --

mutual
/-- Modelled from the spec: all signals referenced by a value. -/
def value_sigs : Value → List Sig
  | .sig s => [s]
  | .const _ _ => []
  | .op _ _ args => value_sigs_list args
  | .slice v _ _ => value_sigs v
  | .cat l => value_sigs_list l
  | .replicate v _ => value_sigs v
def value_sigs_list : List Value → List Sig
  | [] => []
  | x :: xs => value_sigs x ++ value_sigs_list xs
end

mutual
/-- Modelled from the spec: list_signals on statements (all signals
referenced anywhere in a statement). -/
def stmt_sigs : Stmt → List Sig
  | .assign l r => value_sigs l ++ value_sigs r
  | .if_ c t f => value_sigs c ++ stmts_sigs t ++ stmts_sigs f
  | .case_ test cs => value_sigs test ++ cases_sigs cs
  | .display _ args => value_sigs_list args
  | .finish => []
def stmts_sigs : List Stmt → List Sig
  | [] => []
  | x :: xs => stmt_sigs x ++ stmts_sigs xs
def cases_sigs : List (CaseKey × List Stmt) → List Sig
  | [] => []
  | (_, body) :: rest => stmts_sigs body ++ cases_sigs rest
end

/-- Modelled from the spec: list_signals(f) — the signals of the fragment's
combinational and synchronous statements. -/
def list_signals (f : Fragment) : List Sig :=
  dedup_sigs (stmts_sigs f.comb ++
    f.sync.foldl (fun a kv => a ++ stmts_sigs kv.2) [])

/-- Modelled from the spec: list_special_ios(f, ins, outs, inouts) — the
declared i/o signals of the fragment's specials, by direction. -/
def list_special_ios (f : Fragment) (ins outs inouts : Bool) : List Sig :=
  dedup_sigs (f.specials.foldl
    (fun a s =>
      a ++ (if ins then s.sIns else []) ++ (if outs then s.sOuts else [])
        ++ (if inouts then s.sInouts else [])) [])

/-- Modelled from the spec: list_targets(f) — the target signals of the
fragment's combinational and synchronous statements. -/
def list_targets_frag (f : Fragment) : List Sig :=
  dedup_sigs (stmts_targets f.comb ++
    f.sync.foldl (fun a kv => a ++ stmts_targets kv.2) [])

-- ------------------------------------------------------------------------ --
-- Signal declarations and module ports (verilog.py lines 283-336)
-- ------------------------------------------------------------------------ --

/-- The wire set of _generate_signals/_generate_module: continuous-form
combinational targets and special output/inout signals. -/
def wire_sigs (f : Fragment) : List Sig :=
  dedup_sigs (list_comb_wires f ++ list_special_ios f false true true)

/-- _generate_signals (lines 319-336): declare every non-port signal, sorted
by emitted name; wire-typed signals as "wire", the rest as "reg" with an
inline reset initializer exactly when regs_init is set. -/
def generate_signals (R : Renderers)
    (translate : String → Option (String × AttrVal)) (f : Fragment)
    (ios : List Sig) (regs_init : Bool) : String :=
  String.join
    ((sSort (fun a b => strLe (R.name a) (R.name b))
        ((dedup_sigs (list_signals f ++ list_special_ios f true true true)).filter
          (fun s => !(sig_mem s ios)))).map
      (fun sig =>
        generate_attribute translate sig.attr ++
        (if sig_mem sig (wire_sigs f) then
          "wire " ++ R.D sig ++ ";\n"
        else
          "reg  " ++ R.D sig ++
            (if regs_init then " = " ++ R.E (.const sig.reset sig.width) else "")
            ++ ";\n")))

/-- _generate_module (lines 283-317): the port list, sorted by emitted name,
each port classified inout / output (wire or reg) / input.  (The source
also mutates emission-only bookkeeping fields on the signal — sig.type,
sig.name, sig.port, sig.direction — which have no effect on the emitted
text and are not modelled.) -/
def generate_module (R : Renderers)
    (translate : String → Option (String × AttrVal)) (f : Fragment)
    (ios : List Sig) (name : String) : String :=
  "module " ++ name ++ " (\n"
  ++ String.intercalate ",\n"
      ((sSort (fun a b => strLe (R.name a) (R.name b)) ios).map (fun sig =>
        (match generate_attribute translate sig.attr with
         | "" => ""
         | a => tab ++ a) ++
        (if sig_mem sig (list_special_ios f false false true) then
          tab ++ "inout  wire " ++ R.D sig
        else if sig_mem sig
            (dedup_sigs (list_targets_frag f ++ list_special_ios f false true true)) then
          (if sig_mem sig (wire_sigs f) then
            tab ++ "output wire " ++ R.D sig
          else
            tab ++ "output reg  " ++ R.D sig)
        else
          tab ++ "input  wire " ++ R.D sig)))
  ++ "\n);\n\n"

-- ------------------------------------------------------------------------ --
-- Specials emission (verilog.py lines 399-417)
-- ------------------------------------------------------------------------ --

/-- The text block of one special: its rendered attributes followed by the
emitter output — the LiteX memory or instance emitter for the two built-in
kinds (external, litex.gen.fhdl.memory/instance, passed in as functions),
or the override/classmethod result for any other kind; `none` when the
latter does not exist. -/
def special_block (translate : String → Option (String × AttrVal))
    (memE instE : Special → String) (s : Special) : Option String :=
  match s.kind with
  | .memory => some (generate_attribute translate s.attr ++ memE s)
  | .instanceK => some (generate_attribute translate s.attr ++ instE s)
  | .other =>
    match s.emitResult with
    | some t => some (generate_attribute translate s.attr ++ t)
    | none => none

/-- The unimplemented-primitive message (line 415; str(special) is external
and modelled by the special's duid). -/
def special_fail_msg (s : Special) : String :=
  "Special " ++ toString s.duid ++ " failed to implement emit_verilog"

def generate_specials_go (translate : String → Option (String × AttrVal))
    (memE instE : Special → String) : List Special → Except String String
  | [] => .ok ""
  | s :: rest =>
    match special_block translate memE instE s with
    | none => .error (special_fail_msg s)
    | some t =>
      match generate_specials_go translate memE instE rest with
      | .ok r => .ok (t ++ r)
      | .error e => .error e

/-- _generate_specials: emit the given specials in increasing duid order,
aborting with NotImplementedError on the first special providing no
emitter. -/
def generate_specials (translate : String → Option (String × AttrVal))
    (memE instE : Special → String) (specials : List Special) :
    Except String String :=
  generate_specials_go translate memE instE
    (sSort (fun a b => decide (a.duid ≤ b.duid)) specials)

-- ------------------------------------------------------------------------ --
-- Reserved keywords (verilog.py lines 110-161) and the namespace builder
-- ------------------------------------------------------------------------ --

/-- The reserved-keyword set of the source, transcribed verbatim (including
its three whitespace-padded entries). -/
def ieee_1800_2017_verilog_reserved_keywords : List String := [
  "accept_on", "alias", "always", "always_comb",
  "always_ff", "always_latch", "and", "assert",
  "assign", "assume", "automatic", "before",
  "begin", "bind", "bins", "binsof",
  "bit", "break", "buf", "bufif0",
  "bufif1", "byte", "case", "casex",
  "casez", "cell", "chandle", "checker",
  "class", "clocking", "cmos", "config",
  "const", "constraint", "context", "continue",
  "cover", "covergroup", "coverpoint", "cross",
  "deassign", "default", "defparam", "design",
  "disable", "dist", "do", "edge",
  "else", "end", "endcase", "endchecker",
  "endclass", "endclocking", "endconfig", "endfunction",
  "endgenerate", "endgroup", "endinterface", "endmodule",
  "endpackage", "endprimitive", "endprogram", "endproperty",
  "endsequence", "endspecify", "endtable", "endtask",
  "enum", "event", "eventually", "expect",
  "export", "extends", "extern", "final",
  "first_match", "for", "force", "foreach",
  "forever", "fork", "forkjoin", "function",
  "generate", "genvar", "global", "highz0",
  "highz1", "if", "iff", "ifnone",
  "ignore_bins", "illegal_bins", "implements", "implies",
  "import", "incdir", "include", "initial",
  "inout", "input", "inside", "instance",
  "int", "integer", "interconnect", "interface",
  "intersect", "join", "join_any", "join_none",
  "large", "let", "liblist", "library",
  "local", "localparam", "logic", "longint",
  "macromodule", "matches", "medium", "modport",
  "module", "nand", "negedge", "nettype",
  "new", "nexttime", "nmos", "nor",
  "noshowcancelled", "not", "notif0", "notif1",
  "null", "or", "output", "package",
  "packed", "parameter", "pmos", "posedge",
  "primitive", "priority", "program", "property",
  "protected", "pull0", "pull1", "pulldown",
  "pullup", "pulsestyle_ondetect", "pulsestyle_onevent", "pure",
  "rand", "randc", "randcase", "randsequence",
  "rcmos", "real", "realtime", "ref",
  "reg", "reject_on", "release", "      repeat",
  "restrict", "return", "rnmos", "rpmos",
  "rtran", "rtranif0", "rtranif1", "s_always",
  "s_eventually", "s_nexttime", "s_until", "s_until_with",
  "scalared", "sequence", "shortint", "shortreal",
  "showcancelled", "signed", "small", "soft",
  "solve", "specify", "specparam", "static",
  "string", "strong", "strong0", "strong1",
  "struct", "super", "supply0", "supply1",
  "sync_accept_on", "sync_reject_on", "table", "tagged",
  "task", "this", "throughout", "time",
  "timeprecision", "timeunit", "tran", "tranif0",
  "tranif1", "tri", "tri0", "tri1",
  "triand", "trior", "trireg", "type",
  "typedef", "       union", "unique", "unique0",
  "unsigned", "until", "until_with", "untyped",
  "use", "   uwire", "var", "vectored",
  "virtual", "void", "wait", "wait_order",
  "wand", "weak", "weak0", "weak1",
  "while", "wildcard", "wire", "with",
  "within", "wor", "xnor", "xor"
]

-- ------------------------------------------------------------------------ --
-- Banner / trailer / separators / timescale (verilog.py lines 43-88)
-- ------------------------------------------------------------------------ --

/-- _generate_banner; the date string (datetime.now rendering) and the
LiteX revision (get_litex_git_revision, external) are parameters. -/
def generate_banner (filename device revision date : String) : String :=
  "// -----------------------------------------------------------------------------\n// Auto-Generated by:        __   _ __      _  __\n//                          / /  (_) /____ | |/_/\n//                         / /__/ / __/ -_)>  <\n//                        /____/_/\\__/\\__/_/|_|\n//                     Build your hardware, easily!\n//                   https://github.com/enjoy-digital/litex\n//\n// Filename   : " ++ filename ++ ".v\n// Device     : " ++ device ++ "\n// LiteX sha1 : " ++ revision ++ "\n// Date       : " ++ date ++ "\n//------------------------------------------------------------------------------\n\n"

/-- _generate_trailer. -/
def generate_trailer (date : String) : String :=
  "\n// -----------------------------------------------------------------------------\n//  Auto-Generated by LiteX on " ++ date ++ ".\n//------------------------------------------------------------------------------\n"

/-- _generate_separator. -/
def generate_separator (msg : String) : String :=
  "\n" ++ "//" ++ String.join (List.replicate 78 "-") ++ "\n"
  ++ "// " ++ msg ++ "\n"
  ++ "//" ++ String.join (List.replicate 78 "-") ++ "\n"
  ++ "\n"

/-- _generate_timescale. -/
def generate_timescale (time_unit time_precision : String) : String :=
  "`timescale " ++ time_unit ++ " / " ++ time_precision ++ "\n"


/-- Whether a candidate identifier is unavailable: it collides with a
reserved keyword or with an already-assigned identifier (case-sensitive). -/
def ns_taken (reserved used : List String) (c : String) : Bool :=
  reserved.contains c || used.contains c

/-- The k-th candidate for a base name: the base followed by k underscores
(k = 0 gives the preferred base name itself). -/
def ns_candidate (base : String) (k : Nat) : String :=
  base ++ String.mk (List.replicate k '_')

def ns_pick_go (reserved used : List String) (base : String) :
    Nat → Nat → String
  | 0, k => ns_candidate base k
  | fuel + 1, k =>
    if ns_taken reserved used (ns_candidate base k) then
      ns_pick_go reserved used base fuel (k + 1)
    else
      ns_candidate base k

/-- Modelled from the spec: the identifier choice of the Namespace Builder
(litex.gen.fhdl.namer.build_signal_namespace is not under src/).  Spec §4.1:
"(a) every produced identifier is distinct; (b) no produced identifier
collides, case-sensitively, with a reserved keyword; (c) an identifier's
preferred base name comes from the signal ...; (d) collisions are resolved
deterministically" — modelled as: take the preferred base name, and while it
is reserved or already used, extend it deterministically (one underscore per
attempt; the fuel bound exceeds the number of unavailable names, so a free
candidate is always reached). -/
def ns_pick (reserved used : List String) (base : String) : String :=
  ns_pick_go reserved used base (reserved.length + used.length + 1) 0

def build_signal_namespace_go (reserved : List String) :
    List String → List String → List String
  | [], _ => []
  | b :: bs, used =>
    ns_pick reserved used b ::
      build_signal_namespace_go reserved bs (used ++ [ns_pick reserved used b])

/-- Modelled from the spec: build_signal_namespace, at the level of the
signals' preferred base names: assign each signal, in order, a distinct
identifier avoiding the given reserved-keyword set. -/
def build_signal_namespace (reserved : List String) (bases : List String) :
    List String :=
  build_signal_namespace_go reserved bases []

-- ------------------------------------------------------------------------ --
-- Conversion (verilog.py lines 479-617)
-- ------------------------------------------------------------------------ --

/-- The external collaborators convert depends on, all pure:
the leaf renderers; lower_basics and lower_specials (migen.fhdl.tools,
returning the rewritten fragment and, for specials lowering, the set of
fully-absorbed specials); the LiteX memory/instance emitters; the attribute
translation table; the rendered hierarchy comment (LiteXHierarchyExplorer
over the ambient LiteXContext.top); the LiteX git revision and platform
device strings. -/
structure Externals where
  R              : Renderers
  lower_basics_f : Fragment → Fragment
  lower_specials_f : Fragment → Fragment × List Special
  mem_emit       : Special → String
  inst_emit      : Special → String
  translate      : String → Option (String × AttrVal)
  hierarchyText  : String
  revision       : String
  device         : String

/-- The convert keyword parameters (verilog.py lines 483-492). -/
structure Config where
  name           : String := "top"
  regular_comb   : Bool := true
  regs_init      : Bool := true
  time_unit      : String := "1ns"
  time_precision : String := "1ps"

/-- Modelled from the spec: list_clock_domains (migen.fhdl.tools, not under
src/): "every clock-domain name referenced by the fragment's clocked
statements" — the keys of the synchronous map. -/
def list_clock_domains (f : Fragment) : List String :=
  (f.sync.map (fun p => p.1)).eraseDups

/-- The message of the unresolved-clock-domain error (verilog.py lines
511-514): it names the unresolved domain and lists every available
clock-domain name. -/
def unresolved_msg (cd : String) (cds : List (String × Sig)) : String :=
  "Unresolved clock domain " ++ cd ++ ", availables:\n"
  ++ String.join (cds.map (fun p => "- " ++ p.1 ++ "\n"))

def check_clock_domains_go (cds : List (String × Sig)) :
    List String → Except String Unit
  | [] => .ok ()
  | k :: ks =>
    match find_clk cds k with
    | some _ => check_clock_domains_go cds ks
    | none => .error (unresolved_msg k cds)

/-- The Verify/Create Clock Domains step of convert (lines 504-514): walk
the referenced clock-domain names in sorted order and fail on the first one
without a descriptor. -/
def check_clock_domains (f : Fragment) : Except String Unit :=
  check_clock_domains_go f.clockDomains
    (sSort strLe (list_clock_domains f))

/-- Modelled from the spec: insert_resets (migen.fhdl.tools, not under
src/).  Spec §4.2 step 2: "no-op if none required by the surrounding
system; concrete reset values come from each signal's own reset attribute,
applied at declaration time, not injected as extra statements (this pass's
precise externally observable contract: the fragment's synchronous
statements are unchanged in count/shape)"; accordingly the pass is the
identity on the fragment. -/
def insert_resets (f : Fragment) : Fragment := f

/-- The fully lowered fragment convert emits from: complex-slice lowering,
reset insertion, basic lowering, specials lowering, basic lowering again
(verilog.py lines 516-532). -/
def lowered_fragment (ext : Externals) (f0 : Fragment) : Fragment :=
  ext.lower_basics_f
    (ext.lower_specials_f
      (ext.lower_basics_f (insert_resets (lower_complex_slices f0)))).1

/-- The specials absorbed by specials lowering. -/
def lowered_specials (ext : Externals) (f0 : Fragment) : List Special :=
  (ext.lower_specials_f
    (ext.lower_basics_f (insert_resets (lower_complex_slices f0)))).2

/-- Everything convert emits between the banner and the trailer: the
timescale directive and the Module / Hierarchy / Signals / Combinatorial /
Synchronous / Specialized sections, closed by "endmodule".  Specials
emission can fail, in which case the whole conversion fails. -/
def convert_core (ext : Externals) (cfg : Config) (ios : List Sig)
    (f0 : Fragment) : Except String String :=
  match generate_specials ext.translate ext.mem_emit ext.inst_emit
      ((lowered_fragment ext f0).specials.filter
        (fun s => decide (s ∉ lowered_specials ext f0))) with
  | .error e => .error e
  | .ok sp =>
    .ok (generate_timescale cfg.time_unit cfg.time_precision
      ++ generate_separator "Module"
      ++ generate_module ext.R ext.translate (lowered_fragment ext f0) ios cfg.name
      ++ generate_separator "Hierarchy"
      ++ ext.hierarchyText
      ++ generate_separator "Signals"
      ++ generate_signals ext.R ext.translate (lowered_fragment ext f0) ios
          cfg.regs_init
      ++ generate_separator "Combinatorial Logic"
      ++ (if cfg.regular_comb then
            generate_combinatorial_logic_synth ext.R (lowered_fragment ext f0).comb
          else
            generate_combinatorial_logic_sim ext.R (lowered_fragment ext f0).comb)
      ++ generate_separator "Synchronous Logic"
      ++ generate_synchronous_logic ext.R (lowered_fragment ext f0)
      ++ generate_separator "Specialized Logic"
      ++ sp
      ++ "endmodule\n")

/-- convert (verilog.py lines 483-617), producing the output text.  The
banner and the trailer each read the wall clock (time.time()); those two
readings are the parameters t_banner and t_trailer.  The platform-supplied
default I/O set, the I/O backtrace naming and the namespace construction
(the ns.get_name results are already inside ext.R) are external;
the clock-domain check runs before every lowering pass and aborts the whole
conversion, producing no output text. -/
def convert (ext : Externals) (cfg : Config) (ios : List Sig)
    (t_banner t_trailer : String) (f0 : Fragment) : Except String String :=
  match check_clock_domains f0 with
  | .error e => .error e
  | .ok _ =>
    match convert_core ext cfg ios f0 with
    | .error e => .error e
    | .ok core =>
      .ok (generate_banner cfg.name ext.device ext.revision t_banner
        ++ core ++ generate_trailer t_trailer)

-- ------------------------------------------------------------------------ --
-- Spec-side definitions (each follows the spec's words, for comparison
-- with the source-derived definitions above)
-- ------------------------------------------------------------------------ --

/-- Spec-side (spec §8, "Direct-vs-procedural correctness"): "a target
qualifies for direct (continuous) form iff its group has exactly one
statement, that statement is unconditional, and its target is not a bounded
slice". -/
def direct_form_eligible (stmts : List Stmt) : Prop :=
  ∃ l r, stmts = [Stmt.assign l r] ∧ ∀ v a b, l ≠ Value.slice v a b

/-- Spec-side (spec §4.3): the direct form — "emit it as a standalone
continuous binding". -/
def spec_direct_form (R : Renderers) (g : List Sig × List Stmt) : String :=
  "assign " ++ generate_node R .blocking 0 none (g.2.headD .finish)

/-- Spec-side (spec §4.3): the procedural form — one block per group, "at
block entry, initialize every grouped target to its reset value", "then
emit the statements' control structure ... using non-blocking-style
assignment syntax inside the block". -/
def spec_procedural_form (R : Renderers) (g : List Sig × List Stmt) : String :=
  "always @(*) begin\n"
  ++ String.join
      ((sSort (fun a b => strLe (R.name a) (R.name b)) g.1).map
        (fun t => tab ++ R.name t ++ " <= "
          ++ R.E (.const t.reset t.width) ++ ";\n"))
  ++ generate_nodes R .nonBlocking 1 none g.2
  ++ "end\n"

/-- Spec-side (claim C7): the operands of a concatenation paired with the
start offset of each operand's bit span. -/
def cat_spans : List Value → Nat → List (Value × Nat)
  | [], _ => []
  | e :: es, off => (e, off) :: cat_spans es (off + vlen e)

/-- Spec-side (claim C7): "the slice lies entirely within that operand's
bit span". -/
def span_contains (off width start length : Nat) : Prop :=
  off ≤ start ∧ start + length ≤ off + width

/-- A concrete expression renderer, used only to evaluate the emitter on
closed example inputs. -/
def demoE : Value → String
  | .sig s => s.name
  | .const v _ => if v = 0 then "1'd0" else "1'd1"
  | _ => "expr"

/-- Concrete renderers for closed example inputs: signals render as their
name. -/
def demoR : Renderers :=
  { E := demoE, name := fun s => s.name, D := fun s => s.name,
    pystr := fun _ => "?" }

/-- The constant key values of a Case branch list, in insertion order. -/
def const_vals (cs : List (CaseKey × List Stmt)) : List Int :=
  cs.filterMap (fun p =>
    match p.1 with
    | CaseKey.const v _ => some v
    | CaseKey.dflt => none)

/-- Trivial concrete external collaborators, used to evaluate convert on
closed example inputs. -/
def trivExt : Externals :=
  { R := demoR
    lower_basics_f := fun f => f
    lower_specials_f := fun f => (f, [])
    mem_emit := fun _ => ""
    inst_emit := fun _ => ""
    translate := fun _ => none
    hierarchyText := ""
    revision := "rev"
    device := "dev" }

/-- A fragment whose single clocked group references a clock domain with no
descriptor. -/
def fragC8 : Fragment :=
  { comb := [], sync := [("sys", [])], specials := [], clockDomains := [] }

-- ------------------------------------------------------------------------ --
-- Theorems.  General helpers about the string order and the stable sort.
-- ------------------------------------------------------------------------ --

theorem charsLt_irrefl : ∀ l : List Char, charsLt l l = false := by
  intro l
  induction l with
  | nil => rfl
  | cons a as ih => simp [charsLt, ih]

theorem charsLt_trans : ∀ a b c : List Char,
    charsLt a b = true → charsLt b c = true → charsLt a c = true := by
  intro a
  induction a with
  | nil =>
    intro b c hab hbc
    cases b with
    | nil => simp [charsLt] at hab
    | cons y ys =>
      cases c with
      | nil => simp [charsLt] at hbc
      | cons z zs => simp [charsLt]
  | cons x xs ih =>
    intro b c hab hbc
    cases b with
    | nil => simp [charsLt] at hab
    | cons y ys =>
      cases c with
      | nil => simp [charsLt] at hbc
      | cons z zs =>
        rw [charsLt] at hab hbc ⊢
        rcases Nat.lt_trichotomy x.toNat y.toNat with hxy | hxy | hxy
        · rcases Nat.lt_trichotomy y.toNat z.toNat with hyz | hyz | hyz
          · rw [if_pos (Nat.lt_trans hxy hyz)]
          · rw [if_pos (hyz ▸ hxy)]
          · rw [if_neg (Nat.lt_asymm hyz), if_pos hyz] at hbc
            exact absurd hbc (by simp)
        · rw [if_neg (by omega), if_neg (by omega)] at hab
          rcases Nat.lt_trichotomy y.toNat z.toNat with hyz | hyz | hyz
          · rw [if_pos (by omega)]
          · rw [if_neg (by omega), if_neg (by omega)] at hbc
            rw [if_neg (by omega), if_neg (by omega)]
            exact ih ys zs hab hbc
          · rw [if_neg (by omega), if_pos hyz] at hbc
            exact absurd hbc (by simp)
        · rw [if_neg (Nat.lt_asymm hxy), if_pos hxy] at hab
          exact absurd hab (by simp)

theorem charsLt_eq_of_not : ∀ a b : List Char,
    charsLt a b = false → charsLt b a = false → a = b := by
  intro a
  induction a with
  | nil =>
    intro b hab _
    cases b with
    | nil => rfl
    | cons y ys => simp [charsLt] at hab
  | cons x xs ih =>
    intro b hab hba
    cases b with
    | nil => simp [charsLt] at hba
    | cons y ys =>
      rw [charsLt] at hab hba
      rcases Nat.lt_trichotomy x.toNat y.toNat with hxy | hxy | hxy
      · rw [if_pos hxy] at hab
        exact absurd hab (by simp)
      · rw [if_neg (by omega), if_neg (by omega)] at hab hba
        have hc : x = y := Char.ext (UInt32.ext hxy)
        rw [hc, ih ys hab hba]
      · rw [if_neg (Nat.lt_asymm hxy), if_pos hxy] at hba
        exact absurd hba (by simp)

theorem strLe_total : ∀ a b : String, (strLe a b || strLe b a) = true := by
  intro a b
  simp only [strLe, strLt, Bool.or_eq_true, Bool.not_eq_true']
  by_cases h1 : charsLt b.data a.data = true
  · by_cases h2 : charsLt a.data b.data = true
    · have := charsLt_trans _ _ _ h1 h2
      rw [charsLt_irrefl] at this
      exact absurd this (by simp)
    · right; simpa using h2
  · left; simpa using h1

theorem strLe_trans : ∀ a b c : String,
    strLe a b = true → strLe b c = true → strLe a c = true := by
  intro a b c hab hbc
  simp only [strLe, strLt, Bool.not_eq_true'] at hab hbc ⊢
  by_cases hca : charsLt c.data a.data = true
  · by_cases hcb : charsLt b.data c.data = true
    · have := charsLt_trans _ _ _ hcb hca
      rw [this] at hab
      exact absurd hab (by simp)
    · have heq : b.data = c.data :=
        charsLt_eq_of_not b.data c.data (by simpa using hcb) hbc
      rw [← heq] at hca
      rw [hca] at hab
      exact absurd hab (by simp)
  · simpa using hca

theorem sIns_perm (le : α → α → Bool) (x : α) :
    ∀ l : List α, (sIns le x l).Perm (x :: l) := by
  intro l
  induction l with
  | nil => simp [sIns]
  | cons y ys ih =>
    rw [sIns]
    by_cases h : le x y = true
    · simp [h]
    · rw [if_neg (by simp [h])]
      exact (List.Perm.cons y ih).trans (List.Perm.swap x y ys)

theorem sSort_perm (le : α → α → Bool) :
    ∀ l : List α, (sSort le l).Perm l := by
  intro l
  induction l with
  | nil => simp [sSort]
  | cons x xs ih =>
    rw [sSort]
    exact (sIns_perm le x (sSort le xs)).trans (List.Perm.cons x ih)

theorem sSort_length (le : α → α → Bool) (l : List α) :
    (sSort le l).length = l.length :=
  (sSort_perm le l).length_eq

theorem sIns_pairwise (le : α → α → Bool)
    (htotal : ∀ a b, (le a b || le b a) = true)
    (htrans : ∀ a b c, le a b = true → le b c = true → le a c = true)
    (x : α) : ∀ l : List α,
    List.Pairwise (fun a b => le a b = true) l →
    List.Pairwise (fun a b => le a b = true) (sIns le x l) := by
  intro l
  induction l with
  | nil => intro _; simp [sIns]
  | cons y ys ih =>
    intro hp
    rw [sIns]
    rcases List.pairwise_cons.mp hp with ⟨hy, hys⟩
    by_cases h : le x y = true
    · rw [if_pos h]
      refine List.pairwise_cons.mpr ⟨?_, hp⟩
      intro z hz
      rcases List.mem_cons.mp hz with rfl | hz'
      · exact h
      · exact htrans x y z h (hy z hz')
    · rw [if_neg (by simp [h])]
      refine List.pairwise_cons.mpr ⟨?_, ih hys⟩
      intro z hz
      have hz' := (sIns_perm le x ys).mem_iff.mp hz
      rcases List.mem_cons.mp hz' with rfl | hz''
      · have hto := htotal z y
        rw [Bool.or_eq_true] at hto
        rcases hto with h' | h'
        · exact absurd h' h
        · exact h'
      · exact hy z hz''

theorem sSort_pairwise (le : α → α → Bool)
    (htotal : ∀ a b, (le a b || le b a) = true)
    (htrans : ∀ a b c, le a b = true → le b c = true → le a c = true) :
    ∀ l : List α, List.Pairwise (fun a b => le a b = true) (sSort le l) := by
  intro l
  induction l with
  | nil => simp [sSort]
  | cons x xs ih =>
    rw [sSort]
    exact sIns_pairwise le htotal htrans x _ ih

theorem sorted_perm_eq {le : α → α → Bool} :
    ∀ (l₁ l₂ : List α), l₁.Perm l₂ →
      List.Pairwise (fun a b => le a b = true) l₁ →
      List.Pairwise (fun a b => le a b = true) l₂ →
      (∀ a b, a ∈ l₁ → b ∈ l₁ → le a b = true → le b a = true → a = b) →
      l₁ = l₂ := by
  intro l₁
  induction l₁ with
  | nil =>
    intro l₂ hp _ _ _
    exact List.Perm.nil_eq hp
  | cons a t ih =>
    intro l₂ hp h1 h2 hanti
    cases l₂ with
    | nil => exact absurd (List.Perm.nil_eq hp.symm) (by simp)
    | cons b t₂ =>
      have hab : a = b := by
        have hamem : a ∈ b :: t₂ := hp.mem_iff.mp (List.mem_cons_self a t)
        rcases List.mem_cons.mp hamem with rfl | hat2
        · rfl
        · have hbmem : b ∈ a :: t := hp.symm.mem_iff.mp (List.mem_cons_self b t₂)
          rcases List.mem_cons.mp hbmem with rfl | hbt
          · rfl
          · have hba : le b a = true := (List.pairwise_cons.mp h2).1 a hat2
            have hab' : le a b = true := (List.pairwise_cons.mp h1).1 b hbt
            exact hanti a b (List.mem_cons_self a t)
              (List.mem_cons_of_mem a hbt) hab' hba
      subst hab
      have hpt : t.Perm t₂ := hp.cons_inv
      have := ih t₂ hpt (List.pairwise_cons.mp h1).2 (List.pairwise_cons.mp h2).2
        (fun x y hx hy => hanti x y (List.mem_cons_of_mem a hx)
          (List.mem_cons_of_mem a hy))
      rw [this]

-- ------------------------------------------------------------------------ --
-- Claim C1
-- ------------------------------------------------------------------------ --

theorem use_wire_iff (stmts : List Stmt) :
    use_wire stmts = true ↔ direct_form_eligible stmts := by
  constructor
  · intro h
    cases stmts with
    | nil => simp [use_wire] at h
    | cons x rest =>
      cases rest with
      | cons y ys => simp [use_wire] at h
      | nil =>
        cases x with
        | assign l r =>
          refine ⟨l, r, rfl, ?_⟩
          intro v a b hl
          subst hl
          simp [use_wire] at h
        | if_ c t f => simp [use_wire] at h
        | case_ t cs => simp [use_wire] at h
        | display s args => simp [use_wire] at h
        | finish => simp [use_wire] at h
  · rintro ⟨l, r, rfl, hns⟩
    cases l with
    | slice v a b => exact absurd rfl (hns v a b)
    | sig s => simp [use_wire]
    | const c w => simp [use_wire]
    | op n w args => simp [use_wire]
    | cat ll => simp [use_wire]
    | replicate v n => simp [use_wire]

/-- C1: in the synthesis combinational emitter, a shared-target group is
emitted in direct (continuous assign) form iff it consists of exactly one
statement which is a plain unconditional assignment whose target is not a
bounded slice; every other group is emitted as one procedural block that
first assigns every grouped target its reset value and then renders the
group's statements with non-blocking assignments. -/
theorem claim_C1 :
    (∀ stmts : List Stmt, use_wire stmts = true ↔ direct_form_eligible stmts)
    ∧ (∀ (R : Renderers) (comb : List Stmt),
        generate_combinatorial_logic_synth R comb =
          (if comb.isEmpty then ""
           else String.join ((group_by_targets comb).map (fun g =>
             if use_wire g.2 then spec_direct_form R g
             else spec_procedural_form R g))) ++ "\n")
    ∧ (∀ (R : Renderers) (lv : Nat) (l r : Value),
        generate_node R .nonBlocking lv none (.assign l r) =
          tabs lv ++ R.E l ++ " <= " ++ R.E r ++ ";\n") := by
  refine ⟨use_wire_iff, ?_, ?_⟩
  · intro R comb
    simp only [generate_combinatorial_logic_synth, spec_direct_form,
      spec_procedural_form]
  · intro R lv l r
    rfl

-- ------------------------------------------------------------------------ --
-- Claim C4
-- ------------------------------------------------------------------------ --

/-- C4: synchronous emission produces exactly one always-block per clock
domain (the rendered list has one entry per sync group, permuted into
clock-domain-name sorted order), each triggered on the rising edge of the
domain's clock; within a block the operator is chosen per statement: a
variable target updates immediately (" = "), any other target deferred
(" <= "). -/
theorem claim_C4 :
    (∀ f : Fragment,
      (sSort (fun a b : String × List Stmt => strLe a.1 b.1) f.sync).Perm f.sync
      ∧ List.Pairwise (fun a b : String × List Stmt => strLe a.1 b.1 = true)
          (sSort (fun a b : String × List Stmt => strLe a.1 b.1) f.sync))
    ∧ (∀ (R : Renderers) (f : Fragment),
        generate_synchronous_logic R f =
          String.join ((sSort (fun a b : String × List Stmt => strLe a.1 b.1)
              f.sync).map (fun kv =>
            "always @(posedge "
            ++ (match find_clk f.clockDomains kv.1 with
                | some c => R.name c
                | none => "") ++ ") begin\n"
            ++ generate_nodes R .signal 1 none kv.2
            ++ "end\n\n")))
    ∧ (∀ (R : Renderers) (lv : Nat) (l r : Value),
        generate_node R .signal lv none (.assign l r) =
          tabs lv ++ R.E l ++ (if is_variable l then " = " else " <= ")
            ++ R.E r ++ ";\n") := by
  refine ⟨?_, ?_, ?_⟩
  · intro f
    refine ⟨sSort_perm _ _, sSort_pairwise _ ?_ ?_ _⟩
    · intro a b
      exact strLe_total a.1 b.1
    · intro a b c hab hbc
      exact strLe_trans a.1 b.1 c.1 hab hbc
  · intro R f
    simp only [generate_synchronous_logic]
  · intro R lv l r
    rfl
theorem foldl_append_shift : ∀ (l : List String) (s : String),
    l.foldl (· ++ ·) s = s ++ l.foldl (· ++ ·) "" := by
  intro l
  induction l with
  | nil => intro s; simp
  | cons x xs ih =>
    intro s
    simp only [List.foldl_cons]
    rw [ih (s ++ x), ih ("" ++ x)]
    simp [String.append_assoc]

theorem join_cons (a : String) (l : List String) :
    String.join (a :: l) = a ++ String.join l := by
  simp only [String.join, List.foldl_cons]
  rw [foldl_append_shift l ("" ++ a)]
  simp

theorem join_mem_split {β : Type} (f : β → String) :
    ∀ (l : List β) (d : β), d ∈ l →
      ∃ p q, String.join (l.map f) = p ++ (f d ++ q) := by
  intro l
  induction l with
  | nil => intro d hd; exact absurd hd (by simp)
  | cons x xs ih =>
    intro d hd
    rcases List.mem_cons.mp hd with rfl | hd'
    · exact ⟨"", String.join (xs.map f), by
        simp only [List.map_cons, join_cons]
        simp⟩
    · rcases ih d hd' with ⟨p, q, hpq⟩
      refine ⟨f x ++ p, q, ?_⟩
      simp only [List.map_cons, join_cons, hpq]
      simp [String.append_assoc]

-- ------------------------------------------------------------------------ --
-- Claim C8
-- ------------------------------------------------------------------------ --

theorem check_go_error (cds : List (String × Sig)) :
    ∀ (l : List String), (∃ k ∈ l, find_clk cds k = none) →
      ∃ cd ∈ l, find_clk cds cd = none ∧
        check_clock_domains_go cds l = .error (unresolved_msg cd cds) := by
  intro l
  induction l with
  | nil => rintro ⟨k, hk, _⟩; exact absurd hk (by simp)
  | cons x xs ih =>
    rintro ⟨k, hk, hnone⟩
    cases hfc : find_clk cds x with
    | none =>
      refine ⟨x, by simp, hfc, ?_⟩
      rw [check_clock_domains_go, hfc]
    | some c =>
      have hkxs : k ∈ xs := by
        rcases List.mem_cons.mp hk with rfl | h
        · rw [hfc] at hnone; exact absurd hnone (by simp)
        · exact h
      rcases ih ⟨k, hkxs, hnone⟩ with ⟨cd, hcd, hcdn, hgo⟩
      refine ⟨cd, List.mem_cons_of_mem x hcd, hcdn, ?_⟩
      rw [check_clock_domains_go, hfc, hgo]

/-- C8: if some clock-domain name referenced by the fragment's clocked
statements has no descriptor, the conversion aborts with an error — raised
by the clock-domain check that precedes every lowering pass (the error is
the same for every choice of the lowering collaborators), producing no
output text — whose message names the unresolved domain and lists the
available clock-domain names. -/
theorem claim_C8 (ext : Externals) (cfg : Config) (ios : List Sig)
    (t1 t2 : String) (f : Fragment)
    (h : ∃ k ∈ list_clock_domains f, find_clk f.clockDomains k = none) :
    ∃ cd ∈ list_clock_domains f, find_clk f.clockDomains cd = none ∧
      convert ext cfg ios t1 t2 f = .error (unresolved_msg cd f.clockDomains) ∧
      (∃ p q, unresolved_msg cd f.clockDomains = p ++ (cd ++ q)) ∧
      (∀ d ∈ f.clockDomains, ∃ p q,
        unresolved_msg cd f.clockDomains = p ++ (("- " ++ d.1 ++ "\n") ++ q)) := by
  rcases h with ⟨k, hk, hnone⟩
  have hksort : k ∈ sSort strLe (list_clock_domains f) :=
    (sSort_perm strLe (list_clock_domains f)).mem_iff.mpr hk
  rcases check_go_error f.clockDomains (sSort strLe (list_clock_domains f))
      ⟨k, hksort, hnone⟩ with ⟨cd, hcd, hcdn, hgo⟩
  refine ⟨cd, (sSort_perm strLe (list_clock_domains f)).mem_iff.mp hcd, hcdn,
    ?_, ?_, ?_⟩
  · rw [convert]
    have hc : check_clock_domains f = .error (unresolved_msg cd f.clockDomains) := by
      rw [check_clock_domains, hgo]
    rw [hc]
  · refine ⟨"Unresolved clock domain ", ", availables:\n"
      ++ String.join (f.clockDomains.map (fun p => "- " ++ p.1 ++ "\n")), ?_⟩
    simp [unresolved_msg, String.append_assoc]
  · intro d hd
    rcases join_mem_split (fun p : String × Sig => "- " ++ p.1 ++ "\n")
        f.clockDomains d hd with ⟨p, q, hpq⟩
    refine ⟨"Unresolved clock domain " ++ cd ++ ", availables:\n" ++ p, q, ?_⟩
    simp only [String.append_assoc] at hpq
    simp [unresolved_msg, hpq, String.append_assoc]

-- ------------------------------------------------------------------------ --
-- Claim C9
-- ------------------------------------------------------------------------ --

/-- C9: two conversions of the same fragment and configuration differ only
in the two wall-clock readings: either both fail with the same error, or
both succeed with the same core text, wrapped in the banner and trailer
that alone carry the timestamps. -/
theorem claim_C9 (ext : Externals) (cfg : Config) (ios : List Sig)
    (f : Fragment) (t1 t2 t1' t2' : String) :
    (∃ e, convert ext cfg ios t1 t2 f = .error e
      ∧ convert ext cfg ios t1' t2' f = .error e)
    ∨ (∃ core,
        convert ext cfg ios t1 t2 f =
          .ok (generate_banner cfg.name ext.device ext.revision t1
            ++ core ++ generate_trailer t2)
        ∧ convert ext cfg ios t1' t2' f =
          .ok (generate_banner cfg.name ext.device ext.revision t1'
            ++ core ++ generate_trailer t2')) := by
  rw [convert, convert]
  cases hc : check_clock_domains f with
  | error e => exact Or.inl ⟨e, rfl, rfl⟩
  | ok u =>
    cases hcc : convert_core ext cfg ios f with
    | error e => exact Or.inl ⟨e, rfl, rfl⟩
    | ok core => exact Or.inr ⟨core, rfl, rfl⟩

-- ------------------------------------------------------------------------ --
-- Claim C3
-- ------------------------------------------------------------------------ --

set_option maxRecDepth 4000 in
/-- C3: the reserved-keyword list of the source does not contain the IEEE
1800-2017 keywords "repeat", "union" and "uwire" — it contains
whitespace-padded strings "      repeat", "       union" and "   uwire"
instead — so the namespace builder, handed this set, assigns the
identifiers "repeat", "union" and "uwire" verbatim to signals carrying
those base names: exactly the pass-through the claim rules out. -/
theorem claim_C3 :
    build_signal_namespace ieee_1800_2017_verilog_reserved_keywords
        ["repeat", "union", "uwire"] = ["repeat", "union", "uwire"]
    ∧ ("      repeat" ∈ ieee_1800_2017_verilog_reserved_keywords
      ∧ "       union" ∈ ieee_1800_2017_verilog_reserved_keywords
      ∧ "   uwire" ∈ ieee_1800_2017_verilog_reserved_keywords)
    ∧ ("repeat" ∉ ieee_1800_2017_verilog_reserved_keywords
      ∧ "union" ∉ ieee_1800_2017_verilog_reserved_keywords
      ∧ "uwire" ∉ ieee_1800_2017_verilog_reserved_keywords) := by
  decide

theorem claim_C8_witness :
    (∃ k ∈ list_clock_domains fragC8, find_clk fragC8.clockDomains k = none)
    ∧ (∃ cd ∈ list_clock_domains fragC8,
        find_clk fragC8.clockDomains cd = none ∧
        convert trivExt {} [] "A" "B" fragC8 =
          .error (unresolved_msg cd fragC8.clockDomains) ∧
        (∃ p q, unresolved_msg cd fragC8.clockDomains = p ++ (cd ++ q)) ∧
        (∀ d ∈ fragC8.clockDomains, ∃ p q,
          unresolved_msg cd fragC8.clockDomains =
            p ++ (("- " ++ d.1 ++ "\n") ++ q))) :=
  ⟨by decide, claim_C8 trivExt {} [] "A" "B" fragC8 (by decide)⟩

-- ------------------------------------------------------------------------ --
-- Claim C6
-- ------------------------------------------------------------------------ --

/-- C6 counterexample: reset values do NOT surface only at
signal-declaration emission time.  Two fragments whose single conditional
combinational statement differs only in the target signal's reset value
produce different combinational-section text (the procedural block's
default initialization renders the reset), with no declaration involved and
independently of the regs_init knob. -/
theorem claim_C6_counterexample :
    generate_combinatorial_logic_synth demoR
        [Stmt.if_ (.sig { id := 0, name := "c", width := 1 })
          [Stmt.assign (.sig { id := 1, name := "x", width := 1, reset := 0 })
            (.sig { id := 2, name := "a", width := 1 })] []]
    ≠ generate_combinatorial_logic_synth demoR
        [Stmt.if_ (.sig { id := 0, name := "c", width := 1 })
          [Stmt.assign (.sig { id := 1, name := "x", width := 1, reset := 1 })
            (.sig { id := 2, name := "a", width := 1 })] []] := by
  decide

/-- C6 (amended): the reset-insertion pass leaves the fragment — in
particular its synchronous statement groups — unchanged, and at
signal-declaration emission each non-wire signal is declared "reg" with an
inline initializer rendering its reset value exactly when the regs_init
knob is set (reset values additionally surface as default initializations
of combinational procedural blocks, see claim C1). -/
theorem claim_C6 :
    (∀ f : Fragment, insert_resets f = f ∧ (insert_resets f).sync = f.sync
      ∧ (insert_resets f).comb = f.comb)
    ∧ (∀ (R : Renderers) (tr : String → Option (String × AttrVal))
        (f : Fragment) (ios : List Sig),
        generate_signals R tr f ios false =
          String.join
            ((sSort (fun a b => strLe (R.name a) (R.name b))
                ((dedup_sigs (list_signals f ++ list_special_ios f true true true)).filter
                  (fun s => !(sig_mem s ios)))).map
              (fun sig =>
                generate_attribute tr sig.attr ++
                (if sig_mem sig (wire_sigs f) then "wire " ++ R.D sig ++ ";\n"
                 else "reg  " ++ R.D sig ++ ";\n")))
        ∧ generate_signals R tr f ios true =
          String.join
            ((sSort (fun a b => strLe (R.name a) (R.name b))
                ((dedup_sigs (list_signals f ++ list_special_ios f true true true)).filter
                  (fun s => !(sig_mem s ios)))).map
              (fun sig =>
                generate_attribute tr sig.attr ++
                (if sig_mem sig (wire_sigs f) then "wire " ++ R.D sig ++ ";\n"
                 else "reg  " ++ R.D sig
                   ++ (" = " ++ R.E (.const sig.reset sig.width)) ++ ";\n")))) := by
  refine ⟨fun f => ⟨rfl, rfl, rfl⟩, ?_⟩
  intro R tr f ios
  constructor
  · simp only [generate_signals, Bool.false_eq_true, if_false, String.append_empty]
  · simp only [generate_signals, if_true]

-- ------------------------------------------------------------------------ --
-- Claim C10
-- ------------------------------------------------------------------------ --

theorem sig_mem_iff (x : Sig) (l : List Sig) : sig_mem x l = true ↔ x ∈ l := by
  simp only [sig_mem, List.any_eq_true, decide_eq_true_eq]
  constructor
  · rintro ⟨y, hy, rfl⟩; exact hy
  · intro h; exact ⟨x, h, rfl⟩

theorem mem_cases_targets (x : Sig) :
    ∀ cs : List (CaseKey × List Stmt),
      x ∈ cases_targets cs ↔ ∃ p ∈ cs, x ∈ stmts_targets p.2 := by
  intro cs
  induction cs with
  | nil => simp [cases_targets]
  | cons p rest ih =>
    match p with
    | (k, body) =>
      rw [cases_targets]
      simp only [List.mem_append, ih, List.mem_cons]
      constructor
      · rintro (h | ⟨q, hq, hx⟩)
        · exact ⟨(k, body), Or.inl rfl, h⟩
        · exact ⟨q, Or.inr hq, hx⟩
      · rintro ⟨q, hq | hq, hx⟩
        · subst hq; exact Or.inl hx
        · exact Or.inr ⟨q, hq, hx⟩

theorem target_filtered_case_congr (tf : Option Sig) (test : Value)
    {cs cs' : List (CaseKey × List Stmt)} (h : cs.Perm cs') :
    target_filtered tf (.case_ test cs) = target_filtered tf (.case_ test cs') := by
  cases tf with
  | none => rfl
  | some t =>
    simp only [target_filtered, stmt_targets]
    congr 1
    have : t ∈ cases_targets cs ↔ t ∈ cases_targets cs' := by
      rw [mem_cases_targets, mem_cases_targets]
      constructor
      · rintro ⟨p, hp, hx⟩; exact ⟨p, h.mem_iff.mp hp, hx⟩
      · rintro ⟨p, hp, hx⟩; exact ⟨p, h.mem_iff.mpr hp, hx⟩
    by_cases hm : t ∈ cases_targets cs
    · rw [(sig_mem_iff _ _).mpr hm, (sig_mem_iff _ _).mpr (this.mp hm)]
    · have hm' : ¬ t ∈ cases_targets cs' := fun h' => hm (this.mpr h')
      have e1 : sig_mem t (cases_targets cs) = false := by
        rw [← Bool.not_eq_true]; rw [sig_mem_iff]; exact hm
      have e2 : sig_mem t (cases_targets cs') = false := by
        rw [← Bool.not_eq_true]; rw [sig_mem_iff]; exact hm'
      rw [e1, e2]

theorem gcb_fst (R : Renderers) (a : AssignType) (lv : Nat) (tf : Option Sig) :
    ∀ cs : List (CaseKey × List Stmt),
      (generate_case_branches R a lv tf cs).1 =
        cs.filterMap (fun p =>
          match p.1 with
          | CaseKey.const v w => some ((v, w), generate_nodes R a (lv + 2) tf p.2)
          | CaseKey.dflt => none) := by
  intro cs
  induction cs with
  | nil => rfl
  | cons p rest ih =>
    match p with
    | (k, body) =>
      cases k with
      | const v w => simp [generate_case_branches, List.filterMap_cons, ih]
      | dflt => simp [generate_case_branches, List.filterMap_cons, ih]

theorem gcb_snd (R : Renderers) (a : AssignType) (lv : Nat) (tf : Option Sig) :
    ∀ cs : List (CaseKey × List Stmt),
      (generate_case_branches R a lv tf cs).2 =
        (cs.find? (fun p => decide (p.1 = CaseKey.dflt))).map
          (fun p => generate_nodes R a (lv + 2) tf p.2) := by
  intro cs
  induction cs with
  | nil => rfl
  | cons p rest ih =>
    match p with
    | (k, body) =>
      cases k with
      | const v w =>
        rw [generate_case_branches]
        rw [List.find?_cons_of_neg _ (by simp)]
        exact ih
      | dflt =>
        rw [generate_case_branches]
        rw [List.find?_cons_of_pos _ (by simp)]
        rfl

theorem find?_eq_head?_filter (P : α → Bool) :
    ∀ l : List α, l.find? P = (l.filter P).head? := by
  intro l
  induction l with
  | nil => rfl
  | cons x xs ih =>
    by_cases h : P x = true
    · rw [List.find?_cons_of_pos _ h, List.filter_cons_of_pos h]
      rfl
    · rw [List.find?_cons_of_neg _ (by simpa using h),
        List.filter_cons_of_neg (by simpa using h)]
      exact ih

theorem perm_len_le_one_eq {l l' : List α} (h : l.Perm l') (hlen : l.length ≤ 1) :
    l = l' := by
  cases l with
  | nil => exact List.Perm.nil_eq h
  | cons a t =>
    cases t with
    | cons b t' => simp at hlen
    | nil => exact ((List.perm_singleton).mp h.symm).symm

theorem find?_congr_perm {P : α → Bool} {l l' : List α} (h : l.Perm l')
    (hsub : (l.filter P).length ≤ 1) : l.find? P = l'.find? P := by
  rw [find?_eq_head?_filter, find?_eq_head?_filter,
    perm_len_le_one_eq (h.filter P) hsub]

theorem pairwise_ne_inj {K : α → β} :
    ∀ {L : List α}, List.Pairwise (fun x y => K x ≠ K y) L →
      ∀ a ∈ L, ∀ b ∈ L, K a = K b → a = b := by
  intro L
  induction L with
  | nil => intro _ a ha; exact absurd ha (by simp)
  | cons x xs ih =>
    intro hp a ha b hb hk
    rcases List.pairwise_cons.mp hp with ⟨hx, hxs⟩
    rcases List.mem_cons.mp ha with rfl | ha'
    · rcases List.mem_cons.mp hb with rfl | hb'
      · rfl
      · exact absurd hk (hx b hb')
    · rcases List.mem_cons.mp hb with rfl | hb'
      · exact absurd hk.symm (hx a ha')
      · exact ih hxs a ha' b hb' hk

theorem gcb_keys (R : Renderers) (a : AssignType) (lv : Nat) (tf : Option Sig) :
    ∀ cs : List (CaseKey × List Stmt),
      ((generate_case_branches R a lv tf cs).1.map (fun p => p.1.1)) =
        const_vals cs := by
  intro cs
  induction cs with
  | nil => rfl
  | cons p rest ih =>
    match p with
    | (k, body) =>
      cases k with
      | const v w =>
        simp only [generate_case_branches, List.map_cons, ih, const_vals,
          List.filterMap_cons]
      | dflt =>
        simp only [generate_case_branches, ih, const_vals, List.filterMap_cons]

/-- C10 (amended): a Case node with no branches emits no text; the emitted
constant-keyed branches are the Case's constant branches permuted into
ascending constant-value order (stably — ties keep insertion order), with
the default branch rendered last; and when the constant key values are
pairwise distinct and at most one default branch exists, the emitted text
is independent of the order in which the branches were inserted. -/
theorem claim_C10 :
    (∀ (R : Renderers) (a : AssignType) (lv : Nat) (tf : Option Sig)
      (test : Value), generate_node R a lv tf (.case_ test []) = "")
    ∧ (∀ (R : Renderers) (a : AssignType) (lv : Nat) (tf : Option Sig)
        (cs : List (CaseKey × List Stmt)),
        List.Pairwise (fun p q : (Int × Nat) × String => decide (p.1.1 ≤ q.1.1) = true)
          (sSort (fun p q : (Int × Nat) × String => decide (p.1.1 ≤ q.1.1))
            (generate_case_branches R a lv tf cs).1)
        ∧ (sSort (fun p q : (Int × Nat) × String => decide (p.1.1 ≤ q.1.1))
            (generate_case_branches R a lv tf cs).1).Perm
            (generate_case_branches R a lv tf cs).1)
    ∧ (∀ (R : Renderers) (a : AssignType) (lv : Nat) (tf : Option Sig)
        (test : Value) (cs cs' : List (CaseKey × List Stmt)),
        cs.Perm cs' →
        List.Pairwise (fun x y : Int => x ≠ y) (const_vals cs) →
        (cs.filter (fun p => decide (p.1 = CaseKey.dflt))).length ≤ 1 →
        generate_node R a lv tf (.case_ test cs) =
          generate_node R a lv tf (.case_ test cs')) := by
  have htotal : ∀ p q : (Int × Nat) × String,
      ((fun p q : (Int × Nat) × String => decide (p.1.1 ≤ q.1.1)) p q ||
       (fun p q : (Int × Nat) × String => decide (p.1.1 ≤ q.1.1)) q p) = true := by
    intro p q
    rcases Int.le_total p.1.1 q.1.1 with h | h <;> simp [h]
  have htrans : ∀ p q r : (Int × Nat) × String,
      (fun p q : (Int × Nat) × String => decide (p.1.1 ≤ q.1.1)) p q = true →
      (fun p q : (Int × Nat) × String => decide (p.1.1 ≤ q.1.1)) q r = true →
      (fun p q : (Int × Nat) × String => decide (p.1.1 ≤ q.1.1)) p r = true := by
    intro p q r hpq hqr
    simp only [decide_eq_true_eq] at hpq hqr ⊢
    exact le_trans hpq hqr
  refine ⟨?_, ?_, ?_⟩
  · intro R a lv tf test
    cases hf : target_filtered tf (.case_ test []) <;>
      simp [generate_node, hf]
  · intro R a lv tf cs
    exact ⟨sSort_pairwise _ htotal htrans _, sSort_perm _ _⟩
  · intro R a lv tf test cs cs' hperm hdist hdflt
    have hfil := target_filtered_case_congr tf test hperm
    have hbr : (generate_case_branches R a lv tf cs).1.Perm
        (generate_case_branches R a lv tf cs').1 := by
      rw [gcb_fst, gcb_fst]
      exact hperm.filterMap _
    have hkeys : List.Pairwise (fun x y : (Int × Nat) × String => x.1.1 ≠ y.1.1)
        (generate_case_branches R a lv tf cs).1 := by
      have hmap := gcb_keys R a lv tf cs
      rw [← hmap] at hdist
      exact (List.pairwise_map.mp hdist)
    have hsorteq : sSort (fun p q : (Int × Nat) × String => decide (p.1.1 ≤ q.1.1))
        (generate_case_branches R a lv tf cs).1 =
        sSort (fun p q : (Int × Nat) × String => decide (p.1.1 ≤ q.1.1))
        (generate_case_branches R a lv tf cs').1 := by
      apply sorted_perm_eq
      · exact (sSort_perm _ _).trans (hbr.trans (sSort_perm _ _).symm)
      · exact sSort_pairwise _ htotal htrans _
      · exact sSort_pairwise _ htotal htrans _
      · intro x y hx hy hxy hyx
        simp only [decide_eq_true_eq] at hxy hyx
        have hk : x.1.1 = y.1.1 := le_antisymm hxy hyx
        exact pairwise_ne_inj hkeys x ((sSort_perm _ _).mem_iff.mp hx) y
          ((sSort_perm _ _).mem_iff.mp hy) hk
    have hdfl : (generate_case_branches R a lv tf cs).2 =
        (generate_case_branches R a lv tf cs').2 := by
      rw [gcb_snd, gcb_snd, find?_congr_perm hperm hdflt]
    have hemp : cs.isEmpty = cs'.isEmpty := by
      cases cs with
      | nil =>
        have := List.Perm.nil_eq hperm
        rw [← this]
      | cons x xs =>
        cases cs' with
        | nil => exact absurd (List.Perm.nil_eq hperm.symm) (by simp)
        | cons y ys => rfl
    simp only [generate_node, hfil, hsorteq, hdfl, hemp]

/-- C10 counterexample: with two constant keys of equal value (and different
widths — distinct keys of the constant-keyed mapping), the emitted text does
depend on the order in which the branches were added: the stable sort keeps
equal-valued branches in insertion order, so their bodies swap. -/
theorem claim_C10_counterexample :
    generate_node demoR .blocking 0 none
        (.case_ (.sig { id := 0, name := "t", width := 2 })
          [(CaseKey.const 1 2,
            [Stmt.assign (.sig { id := 1, name := "x", width := 1 })
              (.sig { id := 2, name := "a", width := 1 })]),
           (CaseKey.const 1 3,
            [Stmt.assign (.sig { id := 3, name := "y", width := 1 })
              (.sig { id := 4, name := "b", width := 1 })])])
    ≠ generate_node demoR .blocking 0 none
        (.case_ (.sig { id := 0, name := "t", width := 2 })
          [(CaseKey.const 1 3,
            [Stmt.assign (.sig { id := 3, name := "y", width := 1 })
              (.sig { id := 4, name := "b", width := 1 })]),
           (CaseKey.const 1 2,
            [Stmt.assign (.sig { id := 1, name := "x", width := 1 })
              (.sig { id := 2, name := "a", width := 1 })])]) := by
  decide

theorem claim_C10_witness :
    ([(CaseKey.const 3 2,
        [Stmt.assign (.sig { id := 1, name := "x", width := 1 })
          (.sig { id := 2, name := "a", width := 1 })]),
      (CaseKey.const 1 2,
        [Stmt.assign (.sig { id := 3, name := "y", width := 1 })
          (.sig { id := 4, name := "b", width := 1 })])].Perm
     [(CaseKey.const 1 2,
        [Stmt.assign (.sig { id := 3, name := "y", width := 1 })
          (.sig { id := 4, name := "b", width := 1 })]),
      (CaseKey.const 3 2,
        [Stmt.assign (.sig { id := 1, name := "x", width := 1 })
          (.sig { id := 2, name := "a", width := 1 })])])
    ∧ generate_node demoR .blocking 0 none
        (.case_ (.sig { id := 0, name := "t", width := 2 })
          [(CaseKey.const 3 2,
            [Stmt.assign (.sig { id := 1, name := "x", width := 1 })
              (.sig { id := 2, name := "a", width := 1 })]),
           (CaseKey.const 1 2,
            [Stmt.assign (.sig { id := 3, name := "y", width := 1 })
              (.sig { id := 4, name := "b", width := 1 })])]) =
      generate_node demoR .blocking 0 none
        (.case_ (.sig { id := 0, name := "t", width := 2 })
          [(CaseKey.const 1 2,
            [Stmt.assign (.sig { id := 3, name := "y", width := 1 })
              (.sig { id := 4, name := "b", width := 1 })]),
           (CaseKey.const 3 2,
            [Stmt.assign (.sig { id := 1, name := "x", width := 1 })
              (.sig { id := 2, name := "a", width := 1 })])]) :=
  ⟨List.Perm.swap _ _ _,
   claim_C10.2.2 demoR .blocking 0 none (.sig { id := 0, name := "t", width := 2 })
     _ _ (List.Perm.swap _ _ _) (by decide) (by decide)⟩

-- ------------------------------------------------------------------------ --
-- Claim C5
-- ------------------------------------------------------------------------ --

theorem special_block_none_iff (tr : String → Option (String × AttrVal))
    (mE iE : Special → String) (s : Special) :
    special_block tr mE iE s = none ↔
      s.kind = .other ∧ s.emitResult = none := by
  cases hk : s.kind <;> simp only [special_block, hk]
  · simp
  · simp
  · cases he : s.emitResult <;> simp [he]

theorem gsg_ok (tr : String → Option (String × AttrVal))
    (mE iE : Special → String) :
    ∀ l : List Special, (∀ s ∈ l, (special_block tr mE iE s).isSome) →
      generate_specials_go tr mE iE l =
        .ok (String.join (l.map (fun s => (special_block tr mE iE s).getD ""))) := by
  intro l
  induction l with
  | nil => intro _; rfl
  | cons x xs ih =>
    intro h
    have hx := h x (by simp)
    cases hbx : special_block tr mE iE x with
    | none => rw [hbx] at hx; simp at hx
    | some t =>
      rw [generate_specials_go, hbx,
        ih (fun s hs => h s (List.mem_cons_of_mem x hs))]
      simp [join_cons, hbx]

theorem gsg_error (tr : String → Option (String × AttrVal))
    (mE iE : Special → String) :
    ∀ l : List Special, (∃ s ∈ l, special_block tr mE iE s = none) →
      ∃ s ∈ l, special_block tr mE iE s = none ∧
        generate_specials_go tr mE iE l = .error (special_fail_msg s) := by
  intro l
  induction l with
  | nil => rintro ⟨s, hs, _⟩; exact absurd hs (by simp)
  | cons x xs ih =>
    rintro ⟨s, hs, hnone⟩
    cases hbx : special_block tr mE iE x with
    | none =>
      refine ⟨x, by simp, hbx, ?_⟩
      rw [generate_specials_go, hbx]
    | some t =>
      have hsxs : s ∈ xs := by
        rcases List.mem_cons.mp hs with rfl | h
        · rw [hbx] at hnone; exact absurd hnone (by simp)
        · exact h
      rcases ih ⟨s, hsxs, hnone⟩ with ⟨s', hs', hn', hgo⟩
      refine ⟨s', List.mem_cons_of_mem x hs', hn', ?_⟩
      rw [generate_specials_go, hbx, hgo]

/-- C5: every special of the conversion appears exactly once: specials
absorbed by specials lowering are excluded from the emitter's input (a
special reaches the emitter iff it is in the lowered fragment's special set
and not absorbed); when every remaining special has an emitter the output
is the concatenation, in increasing duid order, of exactly one text block
per special; a remaining special of a non-built-in kind with no override
emitter makes the emitter — and with it the whole conversion — fail with
the unimplemented-primitive error. -/
theorem claim_C5 :
    (∀ (tr : String → Option (String × AttrVal)) (mE iE : Special → String)
      (specials : List Special),
      (∀ s ∈ specials, (special_block tr mE iE s).isSome) →
      generate_specials tr mE iE specials =
        .ok (String.join
          ((sSort (fun a b => decide (a.duid ≤ b.duid)) specials).map
            (fun s => (special_block tr mE iE s).getD "")))
      ∧ ((sSort (fun a b => decide (a.duid ≤ b.duid)) specials).map
          (fun s => (special_block tr mE iE s).getD "")).length = specials.length
      ∧ (sSort (fun a b => decide (a.duid ≤ b.duid)) specials).Perm specials
      ∧ List.Pairwise (fun a b : Special => decide (a.duid ≤ b.duid) = true)
          (sSort (fun a b => decide (a.duid ≤ b.duid)) specials))
    ∧ (∀ (tr : String → Option (String × AttrVal)) (mE iE : Special → String)
        (specials : List Special),
        (∃ s ∈ specials, special_block tr mE iE s = none) →
        ∃ s ∈ specials, s.kind = .other ∧ s.emitResult = none ∧
          generate_specials tr mE iE specials = .error (special_fail_msg s))
    ∧ (∀ (ext : Externals) (f0 : Fragment) (s : Special),
        s ∈ (lowered_fragment ext f0).specials.filter
            (fun s => decide (s ∉ lowered_specials ext f0)) ↔
          (s ∈ (lowered_fragment ext f0).specials ∧
            s ∉ lowered_specials ext f0))
    ∧ (∀ (ext : Externals) (cfg : Config) (ios : List Sig)
        (t1 t2 : String) (f0 : Fragment) (e : String),
        check_clock_domains f0 = .ok () →
        generate_specials ext.translate ext.mem_emit ext.inst_emit
          ((lowered_fragment ext f0).specials.filter
            (fun s => decide (s ∉ lowered_specials ext f0))) = .error e →
        convert ext cfg ios t1 t2 f0 = .error e) := by
  refine ⟨?_, ?_, ?_, ?_⟩
  · intro tr mE iE specials h
    have hperm : (sSort (fun a b : Special => decide (a.duid ≤ b.duid)) specials).Perm
        specials := sSort_perm _ _
    refine ⟨?_, ?_, hperm, ?_⟩
    · rw [generate_specials]
      exact gsg_ok tr mE iE _ (fun s hs => h s (hperm.mem_iff.mp hs))
    · rw [List.length_map]
      exact hperm.length_eq
    · refine sSort_pairwise _ ?_ ?_ _
      · intro a b
        rcases Nat.le_total a.duid b.duid with hle | hle <;> simp [hle]
      · intro a b c hab hbc
        simp only [decide_eq_true_eq] at hab hbc ⊢
        exact Nat.le_trans hab hbc
  · intro tr mE iE specials h
    have hperm : (sSort (fun a b : Special => decide (a.duid ≤ b.duid)) specials).Perm
        specials := sSort_perm _ _
    rcases h with ⟨s, hs, hnone⟩
    rcases gsg_error tr mE iE
        (sSort (fun a b : Special => decide (a.duid ≤ b.duid)) specials)
        ⟨s, hperm.mem_iff.mpr hs, hnone⟩ with ⟨s', hs', hn', hgo⟩
    rcases (special_block_none_iff tr mE iE s').mp hn' with ⟨hk, he⟩
    exact ⟨s', hperm.mem_iff.mp hs', hk, he, by rw [generate_specials, hgo]⟩
  · intro ext f0 s
    simp [List.mem_filter]
  · intro ext cfg ios t1 t2 f0 e hcheck herr
    rw [convert, hcheck, convert_core, herr]

theorem claim_C5_witness :
    (∃ s ∈ [({ duid := 0, kind := .other } : Special)],
      special_block (fun _ => none) (fun _ => "") (fun _ => "") s = none)
    ∧ ∃ s ∈ [({ duid := 0, kind := .other } : Special)],
        s.kind = .other ∧ s.emitResult = none ∧
        generate_specials (fun _ => none) (fun _ => "") (fun _ => "")
          [({ duid := 0, kind := .other } : Special)] =
          .error (special_fail_msg s) :=
  ⟨by decide, claim_C5.2.1 (fun _ => none) (fun _ => "") (fun _ => "")
    [{ duid := 0, kind := .other }] (by decide)⟩
theorem stmts_slices_ok_append : ∀ l₁ l₂ : List Stmt,
    stmts_slices_ok (l₁ ++ l₂) = (stmts_slices_ok l₁ && stmts_slices_ok l₂) := by
  intro l₁ l₂
  induction l₁ with
  | nil => simp [stmts_slices_ok]
  | cons x xs ih =>
    rw [List.cons_append, stmts_slices_ok, stmts_slices_ok, ih, Bool.and_assoc]

theorem visit_slices_ok (tc : Bool) : ∀ (v : Value) (st : LowState),
    slices_ok (visit tc v st).1 = true ∧
      (stmts_slices_ok st.comb = true →
        stmts_slices_ok (visit tc v st).2.comb = true) := by
  refine visit.induct tc
    (fun v st => slices_ok (visit tc v st).1 = true ∧
      (stmts_slices_ok st.comb = true →
        stmts_slices_ok (visit tc v st).2.comb = true))
    (fun l st => slices_ok_list (visitList tc l st).1 = true ∧
      (stmts_slices_ok st.comb = true →
        stmts_slices_ok (visitList tc l st).2.comb = true))
    ?_ ?_ ?_ ?_ ?_ ?_ ?_ ?_ ?_ ?_
  · intro st s
    rw [visit]
    exact ⟨rfl, fun h => h⟩
  · intro st c w
    rw [visit]
    exact ⟨rfl, fun h => h⟩
  · intro st n w args ih
    rw [visit]
    exact ⟨by simpa [slices_ok] using ih.1, ih.2⟩
  · intro st l ih
    rw [visit]
    exact ⟨by simpa [slices_ok] using ih.1, ih.2⟩
  · intro st x n ih
    rw [visit]
    exact ⟨by simpa [slices_ok] using ih.1, ih.2⟩
  · intro st x a b hcond ih
    rw [visit, if_pos hcond]
    exact ih
  · intro st x a b hcond s hs
    rw [visit, if_neg hcond]
    constructor
    · split
      next heqs => rfl
      next hnd => exact absurd hs (hnd s)
    · split
      next heqs => exact fun h => h
      next hnd => exact absurd hs (hnd s)
  · intro st x a b hcond hns ih
    rw [visit, if_neg hcond]
    constructor
    · split
      next heqs => exact absurd heqs (hns _)
      next hnd => rfl
    · split
      next heqs => exact absurd heqs (hns _)
      next hnd =>
        intro hok
        have h2 := ih.2 hok
        rw [stmts_slices_ok_append, Bool.and_eq_true]
        refine ⟨h2, ?_⟩
        have h1 := ih.1
        cases tc with
        | true =>
          simp [stmts_slices_ok, stmt_slices_ok, slices_ok, is_sig_node, h1]
        | false =>
          simp [stmts_slices_ok, stmt_slices_ok, slices_ok, is_sig_node, h1]
  · intro st
    rw [visitList]
    exact ⟨rfl, fun h => h⟩
  · intro st x xs ih1 ih2
    rw [visitList]
    constructor
    · simp only [slices_ok_list, Bool.and_eq_true]
      exact ⟨ih1.1, ih2.1⟩
    · intro h
      exact ih2.2 (ih1.2 h)

theorem visitList_slices_ok (tc : Bool) : ∀ (l : List Value) (st : LowState),
    slices_ok_list (visitList tc l st).1 = true ∧
      (stmts_slices_ok st.comb = true →
        stmts_slices_ok (visitList tc l st).2.comb = true) := by
  intro l
  induction l with
  | nil =>
    intro st
    rw [visitList]
    exact ⟨rfl, fun h => h⟩
  | cons x xs ih =>
    intro st
    rw [visitList]
    constructor
    · simp only [slices_ok_list, Bool.and_eq_true]
      exact ⟨(visit_slices_ok tc x st).1, (ih _).1⟩
    · intro h
      exact (ih _).2 ((visit_slices_ok tc x st).2 h)

theorem lower_stmt_slices_ok : ∀ (s : Stmt) (st : LowState),
    stmt_slices_ok (lower_stmt s st).1 = true ∧
      (stmts_slices_ok st.comb = true →
        stmts_slices_ok (lower_stmt s st).2.comb = true) := by
  refine lower_stmt.induct
    (fun s st => stmt_slices_ok (lower_stmt s st).1 = true ∧
      (stmts_slices_ok st.comb = true →
        stmts_slices_ok (lower_stmt s st).2.comb = true))
    (fun cs st => cases_slices_ok (lower_cases cs st).1 = true ∧
      (stmts_slices_ok st.comb = true →
        stmts_slices_ok (lower_cases cs st).2.comb = true))
    (fun l st => stmts_slices_ok (lower_stmts l st).1 = true ∧
      (stmts_slices_ok st.comb = true →
        stmts_slices_ok (lower_stmts l st).2.comb = true))
    ?_ ?_ ?_ ?_ ?_ ?_ ?_ ?_ ?_
  · intro st l r
    rw [lower_stmt]
    constructor
    · simp only [stmt_slices_ok, Bool.and_eq_true]
      exact ⟨(visit_slices_ok true l st).1, (visit_slices_ok false r _).1⟩
    · intro h
      exact (visit_slices_ok false r _).2 ((visit_slices_ok true l st).2 h)
  · intro st c t f iht ihf
    rw [lower_stmt]
    constructor
    · simp only [stmt_slices_ok, Bool.and_eq_true]
      exact ⟨⟨(visit_slices_ok false c st).1, iht.1⟩, ihf.1⟩
    · intro h
      exact ihf.2 (iht.2 ((visit_slices_ok false c st).2 h))
  · intro st test cs ih
    rw [lower_stmt]
    constructor
    · simp only [stmt_slices_ok, Bool.and_eq_true]
      exact ⟨(visit_slices_ok false test st).1, ih.1⟩
    · intro h
      exact ih.2 ((visit_slices_ok false test st).2 h)
  · intro st s args
    rw [lower_stmt]
    constructor
    · simp only [stmt_slices_ok]
      exact (visitList_slices_ok false args st).1
    · intro h
      exact (visitList_slices_ok false args st).2 h
  · intro st
    rw [lower_stmt]
    exact ⟨rfl, fun h => h⟩
  · intro st
    rw [lower_cases]
    exact ⟨rfl, fun h => h⟩
  · intro st k body rest ihb ihr
    rw [lower_cases]
    constructor
    · simp only [cases_slices_ok, Bool.and_eq_true]
      exact ⟨ihb.1, ihr.1⟩
    · intro h
      exact ihr.2 (ihb.2 h)
  · intro st
    rw [lower_stmts]
    exact ⟨rfl, fun h => h⟩
  · intro st x xs ih1 ih2
    rw [lower_stmts]
    constructor
    · simp only [stmts_slices_ok, Bool.and_eq_true]
      exact ⟨ih1.1, ih2.1⟩
    · intro h
      exact ih2.2 (ih1.2 h)

theorem lower_stmts_slices_ok (l : List Stmt) (st : LowState) :
    stmts_slices_ok (lower_stmts l st).1 = true ∧
      (stmts_slices_ok st.comb = true →
        stmts_slices_ok (lower_stmts l st).2.comb = true) := by
  induction l generalizing st with
  | nil =>
    rw [lower_stmts]
    exact ⟨rfl, fun h => h⟩
  | cons x xs ih =>
    rw [lower_stmts]
    constructor
    · simp only [stmts_slices_ok, Bool.and_eq_true]
      exact ⟨(lower_stmt_slices_ok x st).1, (ih _).1⟩
    · intro h
      exact (ih _).2 ((lower_stmt_slices_ok x st).2 h)

theorem lower_sync_slices_ok : ∀ (sync : List (String × List Stmt)) (st : LowState),
    (∀ g ∈ (lower_sync sync st).1, stmts_slices_ok g.2 = true) ∧
      (stmts_slices_ok st.comb = true →
        stmts_slices_ok (lower_sync sync st).2.comb = true) := by
  intro sync
  induction sync with
  | nil =>
    intro st
    rw [lower_sync]
    exact ⟨fun g hg => absurd hg (by simp), fun h => h⟩
  | cons kv rest ih =>
    intro st
    match kv with
    | (k, body) =>
      rw [lower_sync]
      constructor
      · intro g hg
        rcases List.mem_cons.mp hg with rfl | hg'
        · exact (lower_stmts_slices_ok body st).1
        · exact ((ih _).1) g hg'
      · intro h
        exact (ih _).2 ((lower_stmts_slices_ok body st).2 h)

/-- C2: after complex-slice lowering, every slice expression remaining
anywhere in the fragment — in the rewritten combinational statements, in
the proxy-binding statements the pass itself appended, and in every
synchronous statement group — has a plain Signal as its operand (an
original signal or a proxy introduced by the pass). -/
theorem claim_C2 (f : Fragment) :
    stmts_slices_ok (lower_complex_slices f).comb = true ∧
    ∀ g ∈ (lower_complex_slices f).sync, stmts_slices_ok g.2 = true := by
  constructor
  · show stmts_slices_ok
      ((lower_stmts f.comb { fresh := 0, comb := [] }).1 ++
        (lower_sync f.sync (lower_stmts f.comb { fresh := 0, comb := [] }).2).2.comb) = true
    rw [stmts_slices_ok_append, Bool.and_eq_true]
    refine ⟨(lower_stmts_slices_ok f.comb _).1, ?_⟩
    refine (lower_sync_slices_ok f.sync _).2 ?_
    exact (lower_stmts_slices_ok f.comb _).2 rfl
  · intro g hg
    exact (lower_sync_slices_ok f.sync _).1 g hg

theorem cat_spans_off_ge : ∀ (t : List Value) (k : Nat) (e : Value) (off : Nat),
    (e, off) ∈ cat_spans t k → k ≤ off := by
  intro t
  induction t with
  | nil => intro k e off h; simp [cat_spans] at h
  | cons h rest ih =>
    intro k e off hm
    rw [cat_spans] at hm
    rcases List.mem_cons.mp hm with heq | hm'
    · injection heq with h1 h2
      omega
    · have := ih (k + vlen h) e off hm'
      omega

theorem cat_find_some_iff : ∀ (l : List Value) (cs start length : Nat)
    (e : Value) (s : Nat), 1 ≤ length →
    (cat_find start length l cs = some (e, s) ↔
      ∃ off, (e, off) ∈ cat_spans l cs ∧
        span_contains off (vlen e) start length ∧ s = start - off) := by
  intro l
  induction l with
  | nil =>
    intro cs start length e s _
    simp [cat_find, cat_spans]
  | cons h t ih =>
    intro cs start length e s hlen
    rw [cat_find, cat_spans]
    by_cases hc : cs ≤ start ∧ start < cs + vlen h ∧ start + length ≤ cs + vlen h
    · rw [if_pos hc]
      constructor
      · intro hsome
        injection hsome with hp
        injection hp with h1 h2
        subst h1
        exact ⟨cs, List.mem_cons_self _ _, ⟨hc.1, hc.2.2⟩, h2.symm⟩
      · rintro ⟨off, hm, hcont, hs⟩
        rcases List.mem_cons.mp hm with heq | hm'
        · injection heq with h1 h2
          subst h1
          subst h2
          subst hs
          rfl
        · have hge := cat_spans_off_ge t (cs + vlen h) e off hm'
          have : off ≤ start := hcont.1
          omega
    · rw [if_neg hc]
      rw [ih (cs + vlen h) start length e s hlen]
      constructor
      · rintro ⟨off, hm, hcont, hs⟩
        exact ⟨off, List.mem_cons_of_mem _ hm, hcont, hs⟩
      · rintro ⟨off, hm, hcont, hs⟩
        rcases List.mem_cons.mp hm with heq | hm'
        · injection heq with h1 h2
          subst h1
          subst h2
          rcases hcont with ⟨hc1, hc2⟩
          exact absurd ⟨hc1, by omega, hc2⟩ hc
        · exact ⟨off, hm', hcont, hs⟩

theorem lower_slice_cat_step : ∀ (l : List Value) (start length : Nat)
    (e : Value) (s : Nat),
    cat_find start length l 0 = some (e, s) →
    lower_slice_cat (.cat l) start length = lower_slice_cat e s length := by
  intro l start length e s hfind
  rw [lower_slice_cat]
  split
  next e' s' heq =>
    rw [hfind] at heq
    injection heq with hp
    injection hp with h1 h2
    rw [h1, h2]
  next heq => rw [hfind] at heq; simp at heq

theorem fdiv_nat_eq (a w : Nat) : Int.fdiv (a : Int) (w : Int) = ((a / w : Nat) : Int) := by
  rw [Int.fdiv_eq_ediv _ (by omega)]
  exact (Int.ofNat_div a w).symm

theorem replicate_steps_iff : ∀ (v : Value) (n start length : Nat),
    1 ≤ length → 1 ≤ vlen v →
    (replicate_steps (.replicate v n) start length = true ↔
      ∃ k, k * vlen v ≤ start ∧ start + length ≤ (k + 1) * vlen v) := by
  intro v n start length hlen hw
  rw [replicate_steps]
  simp only [decide_eq_true_eq]
  have hcast : (start : Int) + (length : Int) - 1 = ((start + length - 1 : Nat) : Int) := by
    omega
  rw [hcast, fdiv_nat_eq, fdiv_nat_eq, Int.ofNat_inj]
  constructor
  · intro hdiv
    refine ⟨start / vlen v, Nat.div_mul_le_self start (vlen v), ?_⟩
    have hmod := Nat.div_add_mod (start + length - 1) (vlen v)
    have hmlt := Nat.mod_lt (start + length - 1) (show 0 < vlen v by omega)
    have h1 : start + length - 1 <
        ((start + length - 1) / vlen v + 1) * vlen v := by
      rw [Nat.add_mul, Nat.one_mul]
      rw [Nat.mul_comm] at hmod
      omega
    rw [← hdiv] at h1
    omega
  · rintro ⟨k, h1, h2⟩
    have e1 : start / vlen v = k :=
      Nat.div_eq_of_lt_le h1 (by omega)
    have e2 : (start + length - 1) / vlen v = k :=
      Nat.div_eq_of_lt_le (by omega) (by omega)
    rw [e1, e2]

theorem lower_slice_replicate_step : ∀ (v : Value) (n start length : Nat),
    replicate_steps (.replicate v n) start length = true →
    lower_slice_replicate (.replicate v n) start length =
      lower_slice_replicate v (start % vlen v) length := by
  intro v n start length h
  rw [replicate_steps] at h
  simp only [decide_eq_true_eq] at h
  rw [lower_slice_replicate, if_pos h]

theorem replicate_nostep : ∀ (v : Value) (s l : Nat),
    replicate_steps v s l = false → lower_slice_replicate v s l = (v, s) := by
  intro v s l h
  match v with
  | .replicate x n =>
    rw [replicate_steps] at h
    simp only [decide_eq_false_iff_not] at h
    rw [lower_slice_replicate, if_neg h]
  | .sig s' => rfl
  | .const c w => rfl
  | .op n w args => rfl
  | .slice v a b => rfl
  | .cat l' => rfl

theorem lower_slice_cat_idem : ∀ (v : Value) (s l : Nat),
    lower_slice_cat (lower_slice_cat v s l).1 (lower_slice_cat v s l).2 l =
      lower_slice_cat v s l := by
  intro v s l
  induction v, s, l using lower_slice_cat.induct with
  | case1 l start length e s hfind ih =>
    rw [lower_slice_cat_step l start length e s hfind]
    exact ih
  | case2 l start length hfind =>
    have hres : lower_slice_cat (Value.cat l) start length = (Value.cat l, start) := by
      rw [lower_slice_cat]
      split
      next e' s' heq => rw [hfind] at heq; simp at heq
      next heq => rfl
    rw [hres]
    exact hres
  | case3 node start x hne =>
    have hres : lower_slice_cat node start x = (node, start) := by
      rw [lower_slice_cat.eq_def]
      split
      · exact absurd rfl (hne _)
      · rfl
    rw [hres]
    exact hres

theorem lower_slice_fix_fixpoint : ∀ (node : Value) (start length : Nat),
    replicate_steps (lower_slice_fix node start length).1
        (lower_slice_fix node start length).2 length = false
    ∧ lower_slice_cat (lower_slice_fix node start length).1
        (lower_slice_fix node start length).2 length =
        lower_slice_fix node start length := by
  intro node start length
  induction node, start, length using lower_slice_fix.induct with
  | case1 node start length hstep ih =>
    rw [lower_slice_fix, if_pos hstep]
    exact ih
  | case2 node start length hstep =>
    rw [lower_slice_fix, if_neg hstep]
    have hq : lower_slice_replicate (lower_slice_cat node start length).1
        (lower_slice_cat node start length).2 length =
        ((lower_slice_cat node start length).1,
         (lower_slice_cat node start length).2) :=
      replicate_nostep _ _ _ (by simpa using hstep)
    rw [hq]
    refine ⟨by simpa using hstep, ?_⟩
    have := lower_slice_cat_idem node start length
    simpa using this

/-- C7: a slice of a concatenation narrows to the single operand whose bit
span contains the whole slice, with the start rebased by the operand's
offset, and only then; a slice of a replication narrows to the replicated
operand, with the start reduced modulo the operand width, exactly when the
slice lies within one repetition period; and the two narrowings are
alternated by the lowering fixpoint until neither applies to its result. -/
theorem claim_C7 :
    (∀ (l : List Value) (cs start length : Nat) (e : Value) (s : Nat),
      1 ≤ length →
      (cat_find start length l cs = some (e, s) ↔
        ∃ off, (e, off) ∈ cat_spans l cs ∧
          span_contains off (vlen e) start length ∧ s = start - off))
    ∧ (∀ (l : List Value) (start length : Nat) (e : Value) (s : Nat),
        cat_find start length l 0 = some (e, s) →
        lower_slice_cat (.cat l) start length = lower_slice_cat e s length)
    ∧ (∀ (v : Value) (n start length : Nat), 1 ≤ length → 1 ≤ vlen v →
        (replicate_steps (.replicate v n) start length = true ↔
          ∃ k, k * vlen v ≤ start ∧ start + length ≤ (k + 1) * vlen v))
    ∧ (∀ (v : Value) (n start length : Nat),
        replicate_steps (.replicate v n) start length = true →
        lower_slice_replicate (.replicate v n) start length =
          lower_slice_replicate v (start % vlen v) length)
    ∧ (∀ (node : Value) (start length : Nat),
        replicate_steps (lower_slice_fix node start length).1
            (lower_slice_fix node start length).2 length = false
        ∧ lower_slice_cat (lower_slice_fix node start length).1
            (lower_slice_fix node start length).2 length =
            lower_slice_fix node start length) :=
  ⟨fun l cs start length e s hlen => cat_find_some_iff l cs start length e s hlen,
   lower_slice_cat_step,
   replicate_steps_iff,
   lower_slice_replicate_step,
   lower_slice_fix_fixpoint⟩

theorem claim_C7_witness :
    ((1 : Nat) ≤ 2)
    ∧ (cat_find 5 2 [Value.const 0 4, Value.const 0 4] 0 =
          some (Value.const 0 4, 1) ↔
        ∃ off, (Value.const 0 4, off) ∈ cat_spans [Value.const 0 4, Value.const 0 4] 0 ∧
          span_contains off (vlen (Value.const 0 4)) 5 2 ∧ 1 = 5 - off)
    ∧ ((1 : Nat) ≤ vlen (Value.const 0 3))
    ∧ (replicate_steps (.replicate (Value.const 0 3) 4) 4 2 = true ↔
        ∃ k, k * vlen (Value.const 0 3) ≤ 4 ∧ 4 + 2 ≤ (k + 1) * vlen (Value.const 0 3)) :=
  ⟨by decide,
   claim_C7.1 [Value.const 0 4, Value.const 0 4] 0 5 2 (Value.const 0 4) 1 (by decide),
   by decide,
   claim_C7.2.2.1 (Value.const 0 3) 4 4 2 (by decide) (by decide)⟩
